import Mathlib

/-!
Verification of the goBastion web framework core against its specification.

The Go sources are embedded shallowly: Go strings become lists of characters,
Go slices become lists, Go maps become association lists in which a later
assignment shadows an earlier one, and the regex based rewrites of the
template engine are realized as explicit character scanners implementing the
documented matching semantics of the regular expressions in the source.
The Go standard library html template package is an external collaborator of
the repository; where its behaviour decides a claim it is modelled from the
specification, and the model is marked as such in the doc comment.
-/

namespace GoBastion

/- ### Basic utilities over Go strings, embedded as List Char -/

/-- Go strings.HasPrefix s p : does s start with p. -/
def startsWithL : List Char → List Char → Bool
  | _, [] => true
  | [], _ :: _ => false
  | c :: cs, d :: ds => c == d && startsWithL cs ds

/-- Go strings.Split s sep for a one character separator.  As in Go, the
split of the empty string is a single empty field. -/
def splitOnC (sep : Char) : List Char → List (List Char)
  | [] => [[]]
  | c :: cs =>
    if c = sep then [] :: splitOnC sep cs
    else
      match splitOnC sep cs with
      | [] => [[c]]
      | f :: rest => (c :: f) :: rest

/-- Drop the longest run of characters satisfying p from the end. -/
def dropWhileEndC (p : Char → Bool) (l : List Char) : List Char :=
  (l.reverse.dropWhile p).reverse

/-- Go strings.TrimSuffix s (String.singleton sep) : remove one trailing
occurrence of the slash, when present. -/
def trimSuffixSlash (l : List Char) : List Char :=
  if l.getLast? = some '/' then l.dropLast else l

/-- Go strings.Trim s cutset for the one character cutset consisting of the
slash: remove every leading and every trailing slash. -/
def trimSlashes (l : List Char) : List Char :=
  (dropWhileEndC (fun c => c == '/') l).dropWhile (fun c => c == '/')

/- ### Router embedding (src/internal/framework/router/router.go) -/

/-- Path parameters: the Go map params is embedded as an association list in
which the most recent assignment is the head, and lookup takes the first
match, reproducing the overwrite semantics of the Go map. -/
abbrev Params := List (List Char × List Char)

/-- First matching lookup in the parameter association list. -/
def lookupP (k : List Char) : Params → Option (List Char)
  | [] => none
  | p :: ps => if p.1 = k then some p.2 else lookupP k ps

/-- The brace test of the Go match loop: strings.HasPrefix part followed by
strings.HasSuffix part for the one character affixes. -/
def isParamSeg (s : List Char) : Bool :=
  s.head? == some '{' && s.getLast? == some '}'

/-- strings.TrimPrefix after strings.TrimSuffix, extracting the parameter
name from a brace wrapped pattern segment, exactly as in the source. -/
def paramName (s : List Char) : List Char :=
  let s1 := if s.getLast? = some '}' then s.dropLast else s
  if s1.head? = some '{' then s1.tail else s1

/-- The segment comparison loop of match: a brace wrapped pattern segment
binds its name to the path segment, any other segment must agree literally. -/
def matchSegs : List (List Char) → List (List Char) → Params → Option Params
  | [], [], params => some params
  | p :: ps, q :: qs, params =>
    if isParamSeg p then matchSegs ps qs ((paramName p, q) :: params)
    else if p = q then matchSegs ps qs params
    else none
  | _, _, _ => none

/-- Body of match after the two TrimSuffix calls: the exact root check, the
split of both sides on slashes after strings.Trim, the segment count check,
and the segment loop. -/
def matchTrimmed (pattern path : List Char) : Option Params :=
  if pattern = [] ∧ path = [] then some []
  else
    let patternParts := splitOnC '/' (trimSlashes pattern)
    let pathParts := splitOnC '/' (trimSlashes path)
    if patternParts.length ≠ pathParts.length then none
    else matchSegs patternParts pathParts []

/-- The match function of the router: trim one trailing slash from pattern
and path, then compare. -/
def matchRoute (pattern path : List Char) : Option Params :=
  matchTrimmed (trimSuffixSlash pattern) (trimSuffixSlash path)

/-- A registered route; the handler type stays abstract. -/
structure GoRoute (H : Type) where
  method : List Char
  pattern : List Char
  handler : H

/-- The router: a route table and the global middleware list. -/
structure GoRouter (H : Type) where
  routes : List (GoRoute H)
  middlewares : List (H → H)

/-- Router.Use appends a middleware to the global list. -/
def GoRouter.use {H : Type} (r : GoRouter H) (mw : H → H) : GoRouter H :=
  { r with middlewares := r.middlewares ++ [mw] }

/-- The wrapping loop of Router.Handle: for i from len-1 down to 0 the
handler is replaced by middlewares[i] applied to it.  The Nat argument is
the loop counter; the default of getD is never used below the length. -/
def composeLoop {H : Type} (mws : List (H → H)) : Nat → H → H
  | 0, h => h
  | i + 1, h => composeLoop mws i ((mws.getD i id) h)

/-- The handler stored by Router.Handle: the loop run over the whole list. -/
def composeMWs {H : Type} (mws : List (H → H)) (h : H) : H :=
  composeLoop mws mws.length h

/-- Router.Handle wraps the handler with every registered middleware and
appends the route. -/
def GoRouter.handle {H : Type} (r : GoRouter H) (method pattern : List Char)
    (h : H) : GoRouter H :=
  { r with routes := r.routes ++ [⟨method, pattern, composeMWs r.middlewares h⟩] }

/-- The dispatch loop of ServeHTTP: first route whose method matches and
whose pattern matches the path wins; otherwise NotFound, embedded as none. -/
def dispatch {H : Type} (routes : List (GoRoute H)) (method path : List Char) :
    Option (H × Params) :=
  routes.findSome? fun rt =>
    if rt.method = method then (matchRoute rt.pattern path).map (fun ps => (rt.handler, ps))
    else none

/- ### Middleware embeddings (same file, package middleware) -/

/-- The allow check of the rate limiter.  Times are integers standing for
Go time.Time instants, the window is a duration.  The removal loop of the
source sets valid to the index of the first request strictly after the
cutoff and leaves valid at zero when no request qualifies, exactly as the
Go for loop with break does. -/
def rlAllow (limit : Nat) (window : Int) (requests : List Int) (now : Int) :
    Bool × List Int :=
  let cutoff := now - window
  let valid := (requests.findIdx? (fun t => cutoff < t)).getD 0
  let kept := requests.drop valid
  if limit ≤ kept.length then (false, kept)
  else (true, kept ++ [now])

/-- The RateLimit middleware stage: pass through when disabled, otherwise
consult the limiter and short circuit with 429 when it refuses. -/
def rateLimitStep (enabled : Bool) (limit : Nat) (window : Int)
    (requests : List Int) (now : Int) : Option Nat × List Int :=
  if !enabled then (none, requests)
  else
    let r := rlAllow limit window requests now
    if r.1 then (none, r.2) else (some 429, r.2)

/-- The auth exemption list of shouldSkipAuth with its prefix scan. -/
def shouldSkipAuth (path : List Char) : Bool :=
  [("/api/v1/auth/register".data), ("/api/v1/auth/login".data), ("/docs".data),
   ("/docs/openapi.json".data), ("/login".data), ("/register".data)].any
    (fun p => startsWithL path p)

/-- Observable outcome of one CSRF middleware invocation: whether the
wrapped handler is called, whether ValidateCSRFToken was consulted, the
short circuit status, and whether a fresh token cookie is issued. -/
structure CsrfResult where
  callsNext : Bool
  validated : Bool
  status : Option Nat
  setsCookie : Bool
deriving DecidableEq

/-- The CSRF middleware decision structure, branch for branch from the
source: disabled passes, exempt paths and /api/ paths pass untouched, safe
methods pass after issuing a cookie when absent or empty, mutating methods
validate the double submit pair.  Token generation success is assumed, as
the source swallows the generation error. -/
def csrfMiddleware (enableCSRF : Bool) (path method : List Char)
    (cookie : Option (List Char)) (headerTok : List Char)
    (validate : List Char → List Char → Bool) : CsrfResult :=
  if !enableCSRF then ⟨true, false, none, false⟩
  else if shouldSkipAuth path || startsWithL path ("/api/".data) then
    ⟨true, false, none, false⟩
  else if method = ("GET".data) ∨ method = ("HEAD".data) ∨ method = ("OPTIONS".data) then
    ⟨true, false, none, (match cookie with | none => true | some v => v = [])⟩
  else
    match cookie with
    | none => ⟨false, false, some 403, false⟩
    | some cv =>
      if validate cv headerTok then ⟨true, true, none, false⟩
      else ⟨false, true, some 403, false⟩

/-- The claims carried by a validated JWT (security.Claims). -/
structure JwtClaims where
  sub : List Char
  role : List Char
  exp : Int
  iat : Int

/-- Observable outcome of the role check middleware. -/
structure RoleResult where
  callsNext : Bool
  status : Option Nat
deriving DecidableEq

/-- RequireRole: 401 without claims, 403 when the role is neither the
required one nor admin, pass otherwise. -/
def requireRole (role : List Char) (claims : Option JwtClaims) : RoleResult :=
  match claims with
  | none => ⟨false, some 401⟩
  | some c =>
    if c.role ≠ role ∧ c.role ≠ ("admin".data) then ⟨false, some 403⟩
    else ⟨true, none⟩

/- ### Template engine embedding (package view, Engine.preprocess) -/

/-- The leading character class of the echo regex: [a-zA-Z_.]. -/
def identStart (c : Char) : Bool :=
  (decide ('a' ≤ c) && decide (c ≤ 'z')) ||
  (decide ('A' ≤ c) && decide (c ≤ 'Z')) || c == '_' || c == '.'

/-- The continuation character class of the echo regex: [a-zA-Z0-9_.]. -/
def identChar (c : Char) : Bool :=
  identStart c || (decide ('0' ≤ c) && decide (c ≤ '9'))

/-- One match attempt of the echo regex at the position just after an @:
the greedy identifier run [a-zA-Z_.][a-zA-Z0-9_.]* followed by the
optional call group \(["^)"]*\), which joins the match only when a closing
parenthesis occurs; the result is the matched expression and the rest of
the input.  None when the first character is outside the start class. -/
def echoMatch (l : List Char) : Option (List Char × List Char) :=
  match l with
  | [] => none
  | c :: _ =>
    if identStart c then
      match l.dropWhile identChar with
      | '(' :: cs =>
        match cs.dropWhile (fun d => d != ')') with
        | ')' :: rest3 =>
          some (l.takeWhile identChar ++
            '(' :: (cs.takeWhile (fun d => d != ')') ++ [')']), rest3)
        | _ => some (l.takeWhile identChar, l.dropWhile identChar)
      | _ => some (l.takeWhile identChar, l.dropWhile identChar)
    else none

/-- The replacement of the echo rewrite: the matched expression wrapped in
a Go template output action with one space on each side. -/
def wrapAction (e : List Char) : List Char :=
  ("\x7b\x7b ".data) ++ e ++ (" \x7d\x7d".data)

/-- Fueled scanner realizing ReplaceAllStringFunc with the echo regex:
leftmost matches, scanning resumes after each replacement.  The fuel is
an upper bound on the input length; each step consumes at least one
character, so the zero fuel branch is never reached from echoScan. -/
def echoScanF : Nat → List Char → List Char
  | 0, l => l
  | _ + 1, [] => []
  | fuel + 1, c :: l =>
    if c = '@' then
      match echoMatch l with
      | some (e, rest) => wrapAction e ++ echoScanF fuel rest
      | none => '@' :: echoScanF fuel l
    else c :: echoScanF fuel l

/-- The echo rewrite pass of preprocess. -/
def echoScan (l : List Char) : List Char := echoScanF l.length l

/-- Space or tab, the class [ \t] of the line anchored regexes. -/
def isSpTab (c : Char) : Bool := c == ' ' || c == '\t'

/-- The class \s of Go regexp: [\t\n\f\r ]. -/
def isWS (c : Char) : Bool :=
  c == ' ' || c == '\t' || c == '\n' || c == '\x0c' || c == '\r'

/-- Whitespace trim on both ends. -/
def trimWSBoth (l : List Char) : List Char :=
  dropWhileEndC isWS (l.dropWhile isWS)

/-- One line of the logic block open rewrite, the line oriented reading of
the multiline regex go block pattern: optional indentation, the go::
keyword, whitespace, then a nonempty statement captured up to trailing
spaces and tabs.  A line whose statement is empty is left unchanged, as
the capture group requires at least one character. -/
def lineGoRewrite (l : List Char) : List Char :=
  let t := l.dropWhile isSpTab
  if startsWithL t ("go::".data) then
    let core := dropWhileEndC isSpTab ((t.drop 4).dropWhile isWS)
    if core = [] then l
    else ("\x7b\x7b ".data) ++ core ++ (" \x7d\x7d".data)
  else l

/-- One line of the close marker rewrite: a line holding exactly ::end
between optional spaces and tabs becomes the end action. -/
def lineEndRewrite (l : List Char) : List Char :=
  if dropWhileEndC isSpTab (l.dropWhile isSpTab) = ("::end".data) then
    ("\x7b\x7b end \x7d\x7d".data)
  else l

/-- Join with a separator character, inverse of splitOnC. -/
def joinSep (sep : Char) : List (List Char) → List Char
  | [] => []
  | [s] => s
  | s :: t :: rest => s ++ sep :: joinSep sep (t :: rest)

/-- The go block rewrite applied per line over the whole text. -/
def goRewriteAll (l : List Char) : List Char :=
  joinSep '\n' ((splitOnC '\n' l).map lineGoRewrite)

/-- The end marker rewrite applied per line over the whole text. -/
def endRewriteAll (l : List Char) : List Char :=
  joinSep '\n' ((splitOnC '\n' l).map lineEndRewrite)

/-- Two character substring test, Go strings.Contains for a length two
pattern. -/
def contains2 (a b : Char) : List Char → Bool
  | [] => false
  | [_] => false
  | x :: y :: rest => (x == a && y == b) || contains2 a b (y :: rest)

/-- Break the input at the first occurrence of the two character sequence
a b, returning the part before and the part after it. -/
def breakSeq2 (a b : Char) : List Char → Option (List Char × List Char)
  | [] => none
  | [_] => none
  | x :: y :: rest =>
    if x = a ∧ y = b then some ([], rest)
    else
      match breakSeq2 a b (y :: rest) with
      | none => none
      | some (pre, post) => some (x :: pre, post)

/-- Step of the legacy echo tag rewrite: a tag opening, content up to the
first closing marker, rewritten when the trimmed content stays on one
line.  Tags whose capture would span lines are left alone, taking the
first closing marker as the candidate. -/
def stepLegacyEcho (l : List Char) : Option (List Char × List Char) :=
  match l with
  | '<' :: '?' :: '=' :: rest =>
    match breakSeq2 '?' '>' rest with
    | some (mid, after) =>
      let core := trimWSBoth mid
      if core.contains '\n' then none
      else some (("\x7b\x7b ".data) ++ core ++ (" \x7d\x7d".data), after)
    | none => none
  | _ => none

/-- Step of a legacy keyword tag rewrite (if, range, with): the keyword
after optional whitespace, at least one whitespace, then the captured
statement up to the first closing marker. -/
def stepLegacyKw (kw : List Char) (l : List Char) : Option (List Char × List Char) :=
  match l with
  | '<' :: '?' :: rest =>
    let r := rest.dropWhile isWS
    if startsWithL r kw then
      match r.drop kw.length with
      | d :: r2 =>
        if isWS d then
          match breakSeq2 '?' '>' (d :: r2) with
          | some (mid, after) =>
            let core := trimWSBoth mid
            if core = [] || core.contains '\n' then none
            else some (("\x7b\x7b ".data) ++ kw ++ (' ' :: core) ++ (" \x7d\x7d".data), after)
          | none => none
        else none
      | [] => none
    else none
  | _ => none

/-- Step of a bare legacy tag rewrite (else, end): the keyword with only
whitespace around it inside the tag. -/
def stepLegacyBare (kw out : List Char) (l : List Char) : Option (List Char × List Char) :=
  match l with
  | '<' :: '?' :: rest =>
    let r := rest.dropWhile isWS
    if startsWithL r kw then
      match breakSeq2 '?' '>' (r.drop kw.length) with
      | some (mid, after) => if mid.all isWS then some (out, after) else none
      | none => none
    else none
  | _ => none

/-- Step of the legacy comment tag rewrite. -/
def stepLegacyComment (l : List Char) : Option (List Char × List Char) :=
  match l with
  | '<' :: '?' :: rest =>
    match rest.dropWhile isWS with
    | '/' :: '*' :: r2 =>
      match breakSeq2 '*' '/' r2 with
      | some (mid, after) =>
        if mid.contains '\n' then none
        else
          match after.dropWhile isWS with
          | '?' :: '>' :: after2 =>
            some (("\x7b\x7b/* ".data) ++ mid ++ (" */\x7d\x7d".data), after2)
          | _ => none
      | none => none
    | _ => none
  | _ => none

/-- Fueled global replace: scan the text, applying the step at each
position; on a match emit the replacement and resume after it. -/
def legacyScanF (step : List Char → Option (List Char × List Char)) :
    Nat → List Char → List Char
  | 0, l => l
  | _ + 1, [] => []
  | fuel + 1, c :: rest =>
    match step (c :: rest) with
    | some (out, rest2) => out ++ legacyScanF step fuel rest2
    | none => c :: legacyScanF step fuel rest

/-- handleLegacyPHPTags: no work unless the tag opener occurs, then the
seven rewrites in source order (echo, if, range, else, end, with,
comment). -/
def handleLegacyPHPTags (content : List Char) : List Char :=
  if contains2 '<' '?' content then
    let c1 := legacyScanF stepLegacyEcho content.length content
    let c2 := legacyScanF (stepLegacyKw ("if".data)) c1.length c1
    let c3 := legacyScanF (stepLegacyKw ("range".data)) c2.length c2
    let c4 := legacyScanF (stepLegacyBare ("else".data) ("\x7b\x7b else \x7d\x7d".data)) c3.length c3
    let c5 := legacyScanF (stepLegacyBare ("end".data) ("\x7b\x7b end \x7d\x7d".data)) c4.length c4
    let c6 := legacyScanF (stepLegacyKw ("with".data)) c5.length c5
    legacyScanF stepLegacyComment c6.length c6
  else content

/-- Engine.preprocess: legacy tags first, the echo rewrite next, then the
logic open lines, then the close marker lines. -/
def preprocess (content : List Char) : List Char :=
  endRewriteAll (goRewriteAll (echoScan (handleLegacyPHPTags content)))

/- ### Modelled Go template compiler and executor.

Modelled from the spec: the Go html template package is not part of this
repository.  Per the specification, after rewriting the text is handed to
a template compiler that enforces syntactic validity (matching open and
close actions) and produces a compiled template or reports a CompileError;
rendering evaluates each output action against the context, escaping every
echoed value for HTML, and fails when a referenced field is missing. -/

/-- A parsed template node: a literal character or an action body. -/
inductive TNode where
  | text : Char → TNode
  | action : List Char → TNode
deriving DecidableEq

/-- Modelled from the spec: the action scanner of the template compiler.
Text is copied until an opening action delimiter; the action body runs to
the closing delimiter; an unterminated action is a CompileError. -/
def parseA : List Char → Option (List Char) → Option (List TNode)
  | [], none => some []
  | [], some _ => none
  | '{' :: '{' :: rest, none => parseA rest (some [])
  | '}' :: '}' :: rest, some acc =>
    match parseA rest none with
    | none => none
    | some ns => some (TNode.action acc.reverse :: ns)
  | c :: rest, none =>
    match parseA rest none with
    | none => none
    | some ns => some (TNode.text c :: ns)
  | c :: rest, some acc => parseA rest (some (c :: acc))

/-- The first whitespace delimited word of an action body. -/
def firstWord (a : List Char) : List Char :=
  (a.dropWhile isWS).takeWhile (fun c => !isWS c)

/-- Classification of an action: block openers (if, range, with), the
closer (end), and everything else. -/
inductive ActKind where
  | opener
  | closer
  | plain
deriving DecidableEq

/-- Modelled from the spec: the open and close action forms checked by the
template compiler. -/
def actionKind (a : List Char) : ActKind :=
  let w := firstWord a
  if w = ("if".data) ∨ w = ("range".data) ∨ w = ("with".data) then ActKind.opener
  else if w = ("end".data) then ActKind.closer
  else ActKind.plain

/-- Modelled from the spec: the open and close actions must nest; a close
without an open or an open left unclosed is a CompileError. -/
def balancedAux : List TNode → Nat → Bool
  | [], d => d == 0
  | TNode.text _ :: ns, d => balancedAux ns d
  | TNode.action a :: ns, d =>
    match actionKind a with
    | ActKind.opener => balancedAux ns (d + 1)
    | ActKind.closer =>
      match d with
      | 0 => false
      | d' + 1 => balancedAux ns d'
    | ActKind.plain => balancedAux ns d

/-- Modelled from the spec: template compilation, scanning actions and
enforcing matching open and close actions. -/
def compileT (l : List Char) : Option (List TNode) :=
  match parseA l none with
  | none => none
  | some ns => if balancedAux ns 0 then some ns else none

/-- HTML escaping of one character as performed on every echoed value. -/
def escChar (c : Char) : List Char :=
  if c = '<' then ("&lt;".data)
  else if c = '>' then ("&gt;".data)
  else if c = '&' then ("&amp;".data)
  else if c = '\'' then ("&#39;".data)
  else if c = '\"' then ("&#34;".data)
  else [c]

/-- HTML escaping of a value. -/
def htmlEscape (l : List Char) : List Char := (l.map escChar).flatten

/-- A render context: field names mapped to string values. -/
abbrev Ctx := List (List Char × List Char)

/-- Modelled from the spec: evaluation of one output action.  A dot
followed by a field name reads the field from the context and escapes it;
a missing field is a render error; other expression forms are outside the
modelled fragment. -/
def evalAction (a : List Char) (ctx : Ctx) : Option (List Char) :=
  match trimWSBoth a with
  | '.' :: name => (lookupP name ctx).map htmlEscape
  | _ => none

/-- Modelled from the spec: execution of a compiled template against a
context, concatenating literal text and escaped action output. -/
def execNodes : List TNode → Ctx → Option (List Char)
  | [], _ => some []
  | TNode.text c :: ns, ctx =>
    match execNodes ns ctx with
    | none => none
    | some out => some (c :: out)
  | TNode.action a :: ns, ctx =>
    match evalAction a ctx with
    | none => none
    | some v =>
      match execNodes ns ctx with
      | none => none
      | some out => some (v ++ out)

/-- Engine.RenderString over an in memory source: preprocess, compile,
execute. -/
def renderStringT (source : List Char) (ctx : Ctx) : Option (List Char) :=
  match compileT (preprocess source) with
  | none => none
  | some ns => execNodes ns ctx

/-- Does the text after a candidate echo match stop the regex from
extending: either the input ends, or the next character neither continues
the identifier run nor opens a call group. -/
def echoBoundary (rest : List Char) : Bool :=
  match rest with
  | [] => true
  | d :: _ => !identChar d && d != '('

/- ### Dialect sources built from logic block lines (for the balance claim) -/

/-- The control keywords the dialect lowers into block opening actions. -/
inductive LKw where
  | kif
  | krange
  | kwith
deriving DecidableEq

/-- Spelling of a control keyword. -/
def kwChars : LKw → List Char
  | LKw.kif => ("if".data)
  | LKw.krange => ("range".data)
  | LKw.kwith => ("with".data)

/-- One line of a dialect source: literal text, a logic open marker
go:: keyword statement, or the close marker ::end. -/
inductive LItem where
  | lit : List Char → LItem
  | lopen : LKw → List Char → LItem
  | lclose : LItem

/-- The text of one line. -/
def lineOfItem : LItem → List Char
  | LItem.lit s => s
  | LItem.lopen kw arg => ("go:: ".data) ++ (kwChars kw ++ ' ' :: arg)
  | LItem.lclose => ("::end".data)

/-- The whole source: the lines joined by newlines. -/
def sourceOfLines (ls : List LItem) : List Char :=
  joinSep '\n' (ls.map lineOfItem)

/-- A character of a literal line: no echo marker, no action delimiter, no
legacy tag opener, no marker colon, no embedded newline. -/
def lineLitOk (c : Char) : Bool :=
  !(c == '@' || c == '{' || c == '?' || c == ':' || c == '\n')

/-- A wellformed open statement argument: nonempty, free of characters
that would collide with the other rewrites or the action syntax, and not
ending in a space or tab (which the capture group would strip). -/
def argOk (arg : List Char) : Bool :=
  match arg.getLast? with
  | none => false
  | some c =>
    arg.all (fun d => !(d == '@' || d == '{' || d == '}' || d == '?' || d == '\n')) &&
    !isSpTab c

/-- Wellformed dialect line sources. -/
def wfLines : List LItem → Bool
  | [] => true
  | LItem.lit s :: rest => s.all lineLitOk && wfLines rest
  | LItem.lopen _ arg :: rest => argOk arg && wfLines rest
  | LItem.lclose :: rest => wfLines rest

/-- The line after the logic block rewrites. -/
def procLine : LItem → List Char
  | LItem.lit s => s
  | LItem.lopen kw arg => wrapAction (kwChars kw ++ ' ' :: arg)
  | LItem.lclose => ("\x7b\x7b end \x7d\x7d".data)

/-- The parsed nodes of one processed line. -/
def lineNodes : LItem → List TNode
  | LItem.lit s => s.map TNode.text
  | LItem.lopen kw arg => [TNode.action (' ' :: ((kwChars kw ++ ' ' :: arg) ++ [' ']))]
  | LItem.lclose => [TNode.action (" end ".data)]

/-- The parsed nodes of the whole processed source, newlines included. -/
def nodesOfLines : List LItem → List TNode
  | [] => []
  | [li] => lineNodes li
  | li :: li2 :: rest => lineNodes li ++ TNode.text '\n' :: nodesOfLines (li2 :: rest)

/-- The depth scan over the dialect lines: open markers push, the close
marker pops, a pop at depth zero or a leftover depth is an imbalance. -/
def balanceLinesAux : List LItem → Nat → Bool
  | [], d => d == 0
  | LItem.lit _ :: ls, d => balanceLinesAux ls d
  | LItem.lopen _ _ :: ls, d => balanceLinesAux ls (d + 1)
  | LItem.lclose :: ls, d =>
    match d with
    | 0 => false
    | d' + 1 => balanceLinesAux ls d'

/-- Every open marker has its close and no close is stray. -/
def balancedLines (ls : List LItem) : Bool := balanceLinesAux ls 0

/- ### Dialect sources built from literal text and echo markers (C1) -/

/-- The alphabet of field names used in echo markers: letters, digits and
the underscore (a single field access, no dots). -/
def nameAlphabet : List Char :=
  ("abcdefghijklmnopqrstuvwxyzABCDEFGHIJKLMNOPQRSTUVWXYZ0123456789_".data)

/-- Field name characters. -/
def nameCharOk (c : Char) : Bool := decide (c ∈ nameAlphabet)

/-- A literal character that cannot collide with an echo marker, an action
delimiter, a legacy tag opener or a logic line marker. -/
def litCharOk (c : Char) : Bool :=
  !(c == '@' || c == '{' || c == '?' || c == ':')

/-- A piece of an echo only template: literal text or an echo marker
@.name reading one context field. -/
inductive TItem where
  | lit : List Char → TItem
  | echo : List Char → TItem

/-- The template source text of the items. -/
def sourceOfItems : List TItem → List Char
  | [] => []
  | TItem.lit s :: rest => s ++ sourceOfItems rest
  | TItem.echo n :: rest => '@' :: '.' :: (n ++ sourceOfItems rest)

/-- After an echo marker the next character must not extend the match: a
following literal must open with a character outside the identifier class
that does not open a call group; a following marker opens with @, which
never extends a match. -/
def itemBoundaryOk : List TItem → Bool
  | TItem.lit s :: _ =>
    match s.head? with
    | none => false
    | some d => !identChar d && d != '('
  | _ => true

/-- Wellformed echo only templates: literals nonempty and free of marker
characters, names nonempty over the field alphabet, boundaries kept. -/
def wfItems : List TItem → Bool
  | [] => true
  | TItem.lit s :: rest => !s.isEmpty && s.all litCharOk && wfItems rest
  | TItem.echo n :: rest =>
    !n.isEmpty && n.all nameCharOk && itemBoundaryOk rest && wfItems rest

/-- The context supplies every referenced field. -/
def coveredItems : List TItem → Ctx → Bool
  | [], _ => true
  | TItem.lit _ :: rest, ctx => coveredItems rest ctx
  | TItem.echo n :: rest, ctx => (lookupP n ctx).isSome && coveredItems rest ctx

/-- The text after the echo rewrite. -/
def processedOfItems : List TItem → List Char
  | [] => []
  | TItem.lit s :: rest => s ++ processedOfItems rest
  | TItem.echo n :: rest => wrapAction ('.' :: n) ++ processedOfItems rest

/-- The parsed nodes of the processed text. -/
def nodesOfItems : List TItem → List TNode
  | [] => []
  | TItem.lit s :: rest => s.map TNode.text ++ nodesOfItems rest
  | TItem.echo n :: rest =>
    TNode.action (' ' :: (('.' :: n) ++ [' '])) :: nodesOfItems rest

/-- The rendered output: literals verbatim, every echoed context value
HTML escaped. -/
def outputOfItems : List TItem → Ctx → List Char
  | [], _ => []
  | TItem.lit s :: rest, ctx => s ++ outputOfItems rest ctx
  | TItem.echo n :: rest, ctx =>
    htmlEscape ((lookupP n ctx).getD []) ++ outputOfItems rest ctx

/-- The line after the logic open rewrite but before the close rewrite. -/
def procLine1 : LItem → List Char
  | LItem.lit s => s
  | LItem.lopen kw arg => wrapAction (kwChars kw ++ ' ' :: arg)
  | LItem.lclose => ("::end".data)

/-- Positionwise agreement of pattern and path segments: every pattern
segment is either a parameter or literally equal to the path segment. -/
def segsOk : List (List Char) → List (List Char) → Bool
  | [], [] => true
  | p :: ps, q :: qs => (isParamSeg p || p == q) && segsOk ps qs
  | _, _ => false

/-- The parameter bindings produced by the match loop: each brace wrapped
pattern segment paired with the path segment at the same position, later
bindings shadowing earlier ones of the same name. -/
def extractParams (pp qq : List (List Char)) : Params :=
  (pp.zip qq).foldl
    (fun a pr => if isParamSeg pr.1 then (paramName pr.1, pr.2) :: a else a) []

/-- A tracing middleware: logs entry before calling onward and exit after. -/
def mwTrace (n : String) : (List String → List String) → (List String → List String) :=
  fun next tr => next (tr ++ [n ++ ":in"]) ++ [n ++ ":out"]

/-- A tracing terminal handler. -/
def handlerTrace : List String → List String := fun tr => tr ++ ["handler"]

/- ### Lemmas and claim theorems -/

/- ### Lemmas about splitting and trimming -/

theorem splitOnC_of_not_mem {sep : Char} {l : List Char} (h : sep ∉ l) :
    splitOnC sep l = [l] := by
  induction l with
  | nil => rfl
  | cons c cs ih =>
    have hc : ¬ c = sep := fun he => h (he ▸ List.mem_cons_self c cs)
    have hcs : sep ∉ cs := fun hm => h (List.mem_cons_of_mem c hm)
    simp [splitOnC, hc, ih hcs]

theorem dropWhileEndC_concat_neg (p : Char → Bool) (l : List Char) (x : Char)
    (h : p x = false) : dropWhileEndC p (l ++ [x]) = l ++ [x] := by
  unfold dropWhileEndC
  rw [List.reverse_append]
  simp [List.dropWhile_cons, h]

theorem dropWhileEndC_concat_pos (p : Char → Bool) (l : List Char) (x : Char)
    (h : p x = true) : dropWhileEndC p (l ++ [x]) = dropWhileEndC p l := by
  unfold dropWhileEndC
  rw [List.reverse_append]
  simp [List.dropWhile_cons, h]

theorem trimSuffixSlash_concat (l : List Char) :
    trimSuffixSlash (l ++ ['/']) = l := by
  simp [trimSuffixSlash, List.getLast?_concat, List.dropLast_concat]

theorem trimSlashes_concat_slash (l : List Char) :
    trimSlashes (l ++ ['/']) = trimSlashes l := by
  unfold trimSlashes
  rw [dropWhileEndC_concat_pos _ _ _ (by decide)]

theorem matchTrimmed_concat_slash_right (a b : List Char) :
    matchTrimmed a (b ++ ['/']) = matchTrimmed a b := by
  by_cases hab : a = [] ∧ b = []
  · obtain ⟨ha, hb⟩ := hab
    subst ha; subst hb
    decide
  · have h1 : ¬(a = [] ∧ b ++ ['/'] = []) := by
      intro hx
      exact absurd hx.2 (by simp)
    simp only [matchTrimmed, if_neg h1, if_neg hab, trimSlashes_concat_slash]

theorem matchTrimmed_concat_slash_left (a b : List Char) :
    matchTrimmed (a ++ ['/']) b = matchTrimmed a b := by
  by_cases hab : a = [] ∧ b = []
  · obtain ⟨ha, hb⟩ := hab
    subst ha; subst hb
    decide
  · have h1 : ¬(a ++ ['/'] = [] ∧ b = []) := by
      intro hx
      exact absurd hx.1 (by simp)
    simp only [matchTrimmed, if_neg h1, if_neg hab, trimSlashes_concat_slash]

theorem matchTrimmed_trim_right (a b : List Char) :
    matchTrimmed a (trimSuffixSlash b) = matchTrimmed a b := by
  by_cases hb : b.getLast? = some '/'
  · have hbne : b ≠ [] := by
      intro hx
      rw [hx] at hb
      simp at hb
    have hlast : b.getLast hbne = '/' := by
      have := List.getLast?_eq_getLast b hbne
      rw [this] at hb
      exact Option.some.inj hb
    have hrec : b.dropLast ++ ['/'] = b := by
      have := List.dropLast_append_getLast hbne
      rw [hlast] at this
      exact this
    have hts : trimSuffixSlash b = b.dropLast := by simp [trimSuffixSlash, hb]
    rw [hts, ← hrec, matchTrimmed_concat_slash_right, List.dropLast_concat]
  · simp [trimSuffixSlash, hb]

theorem matchTrimmed_trim_left (a b : List Char) :
    matchTrimmed (trimSuffixSlash a) b = matchTrimmed a b := by
  by_cases ha : a.getLast? = some '/'
  · have hane : a ≠ [] := by
      intro hx
      rw [hx] at ha
      simp at ha
    have hlast : a.getLast hane = '/' := by
      have := List.getLast?_eq_getLast a hane
      rw [this] at ha
      exact Option.some.inj ha
    have hrec : a.dropLast ++ ['/'] = a := by
      have := List.dropLast_append_getLast hane
      rw [hlast] at this
      exact this
    have hts : trimSuffixSlash a = a.dropLast := by simp [trimSuffixSlash, ha]
    rw [hts, ← hrec, matchTrimmed_concat_slash_left, List.dropLast_concat]
  · simp [trimSuffixSlash, ha]

/- ### Lemmas about the echo scanner -/

theorem dropWhile_length_le (p : Char → Bool) :
    ∀ l : List Char, (l.dropWhile p).length ≤ l.length := by
  intro l
  induction l with
  | nil => simp
  | cons c l ih =>
    by_cases hc : p c = true
    · rw [List.dropWhile_cons_of_pos hc]
      exact Nat.le_trans ih (Nat.le_succ _)
    · rw [List.dropWhile_cons_of_neg (by simpa using hc)]

theorem echoMatch_rest_length (l e rest : List Char)
    (h : echoMatch l = some (e, rest)) : rest.length ≤ l.length := by
  cases l with
  | nil => simp [echoMatch] at h
  | cons c l' =>
    by_cases hs : identStart c = true
    · simp only [echoMatch, if_pos hs] at h
      have hlen0 := dropWhile_length_le identChar (c :: l')
      split at h
      · rename_i cs hdrop
        have hlen1 := dropWhile_length_le (fun d => d != ')') cs
        split at h
        · rename_i rest3 hdrop2
          simp only [Option.some.injEq, Prod.mk.injEq] at h
          obtain ⟨-, h2⟩ := h
          rw [← h2]
          rw [hdrop] at hlen0
          rw [hdrop2] at hlen1
          simp only [List.length_cons] at hlen0 hlen1 ⊢
          omega
        · simp only [Option.some.injEq, Prod.mk.injEq] at h
          obtain ⟨-, h2⟩ := h
          rw [← h2]
          exact hlen0
      · simp only [Option.some.injEq, Prod.mk.injEq] at h
        obtain ⟨-, h2⟩ := h
        rw [← h2]
        exact hlen0
    · simp only [echoMatch, if_neg hs] at h
      exact Option.noConfusion h

theorem echoScanF_eq (f : Nat) : ∀ l : List Char, l.length ≤ f →
    echoScanF f l = echoScan l := by
  induction f using Nat.strong_induction_on with
  | _ f ih =>
    intro l hl
    cases l with
    | nil =>
      cases f with
      | zero => rfl
      | succ f' => rfl
    | cons c l' =>
      cases f with
      | zero => simp at hl
      | succ f' =>
        have hl' : l'.length ≤ f' := by simpa using hl
        show echoScanF (f' + 1) (c :: l') = echoScanF (l'.length + 1) (c :: l')
        by_cases hc : c = '@'
        · subst hc
          cases hm : echoMatch l' with
          | none =>
            simp only [echoScanF, eq_self_iff_true, if_true, hm]
            rw [ih f' (Nat.lt_succ_self _) l' hl']
            rfl
          | some pr =>
            obtain ⟨e, rest⟩ := pr
            have hr : rest.length ≤ l'.length := echoMatch_rest_length _ _ _ hm
            simp only [echoScanF, eq_self_iff_true, if_true, hm]
            rw [ih f' (Nat.lt_succ_self _) rest (hr.trans hl'),
              ih l'.length (Nat.lt_succ_of_le hl') rest hr]
        · simp only [echoScanF, if_neg hc]
          rw [ih f' (Nat.lt_succ_self _) l' hl']
          rfl

theorem echoScan_cons_ne (c : Char) (l : List Char) (hc : c ≠ '@') :
    echoScan (c :: l) = c :: echoScan l := by
  show echoScanF (l.length + 1) (c :: l) = _
  simp only [echoScanF, if_neg hc]
  rfl

theorem echoScan_nil : echoScan [] = [] := rfl

theorem echoScan_at_some (l e rest : List Char) (h : echoMatch l = some (e, rest)) :
    echoScan ('@' :: l) = wrapAction e ++ echoScan rest := by
  show echoScanF (l.length + 1) ('@' :: l) = _
  simp only [echoScanF, eq_self_iff_true, if_true, h]
  rw [echoScanF_eq l.length rest (echoMatch_rest_length _ _ _ h)]

theorem echoScan_at_none (l : List Char) (h : echoMatch l = none) :
    echoScan ('@' :: l) = '@' :: echoScan l := by
  show echoScanF (l.length + 1) ('@' :: l) = _
  simp only [echoScanF, eq_self_iff_true, if_true, h]
  rfl

theorem echoScan_append_no_at (s t : List Char) (hs : '@' ∉ s) :
    echoScan (s ++ t) = s ++ echoScan t := by
  induction s with
  | nil => simp
  | cons c s' ih =>
    have hc : c ≠ '@' := fun he => hs (he ▸ List.mem_cons_self c s')
    have hs' : '@' ∉ s' := fun hm => hs (List.mem_cons_of_mem c hm)
    rw [List.cons_append, echoScan_cons_ne c _ hc, ih hs', List.cons_append]

theorem echoScan_no_at (l : List Char) (h : '@' ∉ l) : echoScan l = l := by
  have h2 := echoScan_append_no_at l [] h
  simpa [echoScan_nil] using h2

theorem echoMatch_ident_exact (c : Char) (cs rest : List Char)
    (hstart : identStart c = true) (hall : ∀ d ∈ c :: cs, identChar d = true)
    (hb : echoBoundary rest = true) :
    echoMatch ((c :: cs) ++ rest) = some (c :: cs, rest) := by
  have htake : ((c :: cs) ++ rest).takeWhile identChar = c :: cs := by
    rw [List.takeWhile_append_of_pos hall]
    cases rest with
    | nil => simp
    | cons d ds =>
      have hd : ¬ identChar d = true := by
        simp only [echoBoundary, Bool.and_eq_true, Bool.not_eq_true',
          bne_iff_ne] at hb
        simp [hb.1]
      rw [List.takeWhile_cons_of_neg hd]
      simp
  have hdrop : ((c :: cs) ++ rest).dropWhile identChar = rest := by
    rw [List.dropWhile_append_of_pos hall]
    cases rest with
    | nil => simp
    | cons d ds =>
      have hd : ¬ identChar d = true := by
        simp only [echoBoundary, Bool.and_eq_true, Bool.not_eq_true',
          bne_iff_ne] at hb
        simp [hb.1]
      rw [List.dropWhile_cons_of_neg hd]
  have hshape : (c :: cs) ++ rest = c :: (cs ++ rest) := by simp
  rw [hshape] at htake hdrop ⊢
  simp only [echoMatch, if_pos hstart, htake, hdrop]
  cases rest with
  | nil => rfl
  | cons d ds =>
    have hdne : d ≠ '(' := by
      simp only [echoBoundary, Bool.and_eq_true, Bool.not_eq_true',
        bne_iff_ne] at hb
      exact hb.2
    split
    · rename_i heq
      exact absurd (List.cons.inj heq.symm).1 (Ne.symm hdne)
    · rfl

theorem echoMatch_call_exact (c : Char) (cs args rest : List Char)
    (hstart : identStart c = true) (hall : ∀ d ∈ c :: cs, identChar d = true)
    (hargs : ')' ∉ args) :
    echoMatch ((c :: cs) ++ '(' :: (args ++ ')' :: rest)) =
      some ((c :: cs) ++ '(' :: (args ++ [')']), rest) := by
  have htake : ((c :: cs) ++ '(' :: (args ++ ')' :: rest)).takeWhile identChar =
      c :: cs := by
    rw [List.takeWhile_append_of_pos hall, List.takeWhile_cons_of_neg (by decide)]
    simp
  have hdrop : ((c :: cs) ++ '(' :: (args ++ ')' :: rest)).dropWhile identChar =
      '(' :: (args ++ ')' :: rest) := by
    rw [List.dropWhile_append_of_pos hall, List.dropWhile_cons_of_neg (by decide)]
  have hargall : ∀ d ∈ args, (d != ')') = true := by
    intro d hd
    simp only [bne_iff_ne]
    intro he
    exact hargs (he ▸ hd)
  have htake2 : (args ++ ')' :: rest).takeWhile (fun x => x != ')') = args := by
    rw [List.takeWhile_append_of_pos hargall, List.takeWhile_cons_of_neg (by decide)]
    simp
  have hdrop2 : (args ++ ')' :: rest).dropWhile (fun x => x != ')') = ')' :: rest := by
    rw [List.dropWhile_append_of_pos hargall, List.dropWhile_cons_of_neg (by decide)]
  have hshape : (c :: cs) ++ '(' :: (args ++ ')' :: rest) =
      c :: (cs ++ '(' :: (args ++ ')' :: rest)) := by simp
  rw [hshape] at htake hdrop ⊢
  simp only [echoMatch, if_pos hstart, htake, hdrop, htake2, hdrop2]

theorem echoMatch_none_of_not_start (c : Char) (l : List Char)
    (h : identStart c = false) : echoMatch (c :: l) = none := by
  rw [echoMatch, if_neg (by simp [h])]

/- ### Lemmas about split, join and the line rewrites -/

theorem splitOnC_ne_nil (sep : Char) (l : List Char) : splitOnC sep l ≠ [] := by
  cases l with
  | nil => simp [splitOnC]
  | cons c cs =>
    by_cases hc : c = sep
    · simp [splitOnC, hc]
    · simp only [splitOnC, if_neg hc]
      cases splitOnC sep cs with
      | nil => simp
      | cons f rest => simp

theorem joinSep_splitOnC (sep : Char) (l : List Char) :
    joinSep sep (splitOnC sep l) = l := by
  induction l with
  | nil => rfl
  | cons c cs ih =>
    by_cases hc : c = sep
    · subst hc
      simp only [splitOnC, if_pos rfl]
      cases hsp : splitOnC c cs with
      | nil => exact absurd hsp (splitOnC_ne_nil c cs)
      | cons f rest =>
        rw [hsp] at ih
        show joinSep c ([] :: f :: rest) = c :: cs
        rw [joinSep]
        simpa using ih
    · simp only [splitOnC, if_neg hc]
      cases hsp : splitOnC sep cs with
      | nil => exact absurd hsp (splitOnC_ne_nil sep cs)
      | cons f rest =>
        rw [hsp] at ih
        cases rest with
        | nil =>
          show joinSep sep [c :: f] = c :: cs
          rw [joinSep]
          rw [joinSep] at ih
          rw [ih]
        | cons g rest' =>
          show joinSep sep ((c :: f) :: g :: rest') = c :: cs
          rw [joinSep]
          rw [joinSep] at ih
          rw [List.cons_append, ih]

theorem splitOnC_append_cons (sep : Char) (s t : List Char) (hs : sep ∉ s) :
    splitOnC sep (s ++ sep :: t) = s :: splitOnC sep t := by
  induction s with
  | nil => simp [splitOnC]
  | cons c s' ih =>
    have hc : ¬ c = sep := fun he => hs (he ▸ List.mem_cons_self c s')
    have hs' : sep ∉ s' := fun hm => hs (List.mem_cons_of_mem c hm)
    rw [List.cons_append]
    simp only [splitOnC, if_neg hc, ih hs']

theorem splitOnC_joinSep (sep : Char) : ∀ (ls : List (List Char)), ls ≠ [] →
    (∀ s ∈ ls, sep ∉ s) → splitOnC sep (joinSep sep ls) = ls := by
  intro ls
  induction ls with
  | nil => intro h; exact absurd rfl h
  | cons s rest ih =>
    intro _ hall
    cases rest with
    | nil =>
      show splitOnC sep s = [s]
      exact splitOnC_of_not_mem (hall s (List.mem_cons_self s []))
    | cons t rest' =>
      show splitOnC sep (s ++ sep :: joinSep sep (t :: rest')) = s :: t :: rest'
      rw [splitOnC_append_cons sep s _ (hall s (List.mem_cons_self s _))]
      rw [ih (by simp) (fun x hx => hall x (List.mem_cons_of_mem s hx))]

theorem startsWithL_mem (s p : List Char) (h : startsWithL s p = true) :
    ∀ c ∈ p, c ∈ s := by
  induction p generalizing s with
  | nil => intro c hc; simp at hc
  | cons d p' ih =>
    cases s with
    | nil => simp [startsWithL] at h
    | cons e s' =>
      simp only [startsWithL, Bool.and_eq_true, beq_iff_eq] at h
      intro c hc
      rcases List.mem_cons.1 hc with h1 | h1
      · rw [h1, ← h.1]
        exact List.mem_cons_self e s'
      · exact List.mem_cons_of_mem e (ih s' h.2 c h1)

theorem mem_of_mem_dropWhile (p : Char → Bool) (l : List Char) (c : Char)
    (h : c ∈ l.dropWhile p) : c ∈ l := by
  induction l with
  | nil => simp at h
  | cons a l' ih =>
    by_cases ha : p a = true
    · rw [List.dropWhile_cons_of_pos ha] at h
      exact List.mem_cons_of_mem a (ih h)
    · rw [List.dropWhile_cons_of_neg (by simpa using ha)] at h
      exact h

theorem mem_of_mem_dropWhileEndC (p : Char → Bool) (l : List Char) (c : Char)
    (h : c ∈ dropWhileEndC p l) : c ∈ l := by
  unfold dropWhileEndC at h
  rw [List.mem_reverse] at h
  have h2 := mem_of_mem_dropWhile p l.reverse c h
  rwa [List.mem_reverse] at h2

theorem mem_of_mem_splitOnC (sep : Char) (l : List Char) (s : List Char)
    (hs : s ∈ splitOnC sep l) (c : Char) (hc : c ∈ s) : c ∈ l := by
  induction l generalizing s with
  | nil =>
    simp [splitOnC] at hs
    rw [hs] at hc
    simp at hc
  | cons a l' ih =>
    by_cases ha : a = sep
    · rw [ha] at hs ⊢
      simp only [splitOnC, if_pos rfl] at hs
      rcases List.mem_cons.1 hs with h1 | h1
      · rw [h1] at hc
        simp at hc
      · exact List.mem_cons_of_mem sep (ih s h1 hc)
    · simp only [splitOnC, if_neg ha] at hs
      cases hsp : splitOnC sep l' with
      | nil => exact absurd hsp (splitOnC_ne_nil sep l')
      | cons f rest =>
        rw [hsp] at hs
        rcases List.mem_cons.1 hs with h1 | h1
        · rw [h1] at hc
          rcases List.mem_cons.1 hc with h2 | h2
          · rw [h2]
            exact List.mem_cons_self a l'
          · exact List.mem_cons_of_mem a (ih f (hsp ▸ List.mem_cons_self f rest) h2)
        · exact List.mem_cons_of_mem a (ih s (hsp ▸ List.mem_cons_of_mem f h1) hc)

theorem lineGoRewrite_id (l : List Char) (h : ':' ∉ l) : lineGoRewrite l = l := by
  unfold lineGoRewrite
  by_cases hsw : startsWithL (l.dropWhile isSpTab) ("go::".data) = true
  · exfalso
    have hc : ':' ∈ l.dropWhile isSpTab :=
      startsWithL_mem _ _ hsw ':' (by decide)
    exact h (mem_of_mem_dropWhile _ _ _ hc)
  · simp [hsw]

theorem lineEndRewrite_id (l : List Char) (h : ':' ∉ l) : lineEndRewrite l = l := by
  unfold lineEndRewrite
  by_cases he : dropWhileEndC isSpTab (l.dropWhile isSpTab) = ("::end".data)
  · exfalso
    have hc : ':' ∈ dropWhileEndC isSpTab (l.dropWhile isSpTab) := by
      rw [he]
      decide
    exact h (mem_of_mem_dropWhile _ _ _ (mem_of_mem_dropWhileEndC _ _ _ hc))
  · simp [he]

theorem goRewriteAll_id (l : List Char) (h : ':' ∉ l) : goRewriteAll l = l := by
  unfold goRewriteAll
  have hmap : (splitOnC '\n' l).map lineGoRewrite = (splitOnC '\n' l).map id := by
    apply List.map_congr_left
    intro p hp
    exact lineGoRewrite_id p (fun hc => h (mem_of_mem_splitOnC '\n' l p hp ':' hc))
  rw [hmap, List.map_id, joinSep_splitOnC]

theorem endRewriteAll_id (l : List Char) (h : ':' ∉ l) : endRewriteAll l = l := by
  unfold endRewriteAll
  have hmap : (splitOnC '\n' l).map lineEndRewrite = (splitOnC '\n' l).map id := by
    apply List.map_congr_left
    intro p hp
    exact lineEndRewrite_id p (fun hc => h (mem_of_mem_splitOnC '\n' l p hp ':' hc))
  rw [hmap, List.map_id, joinSep_splitOnC]

theorem contains2_eq_false (a b : Char) (l : List Char) (h : b ∉ l) :
    contains2 a b l = false := by
  induction l with
  | nil => rfl
  | cons x l' ih =>
    cases l' with
    | nil => rfl
    | cons y l'' =>
      have hy : (y == b) = false := by
        simp only [beq_eq_false_iff_ne]
        intro he
        exact h (by rw [← he]; exact List.mem_cons_of_mem x (List.mem_cons_self y l''))
      have h' : b ∉ y :: l'' := fun hm => h (List.mem_cons_of_mem x hm)
      simp only [contains2, ih h', hy, Bool.and_false, Bool.or_false]

theorem handleLegacyPHPTags_id (l : List Char) (h : '?' ∉ l) :
    handleLegacyPHPTags l = l := by
  unfold handleLegacyPHPTags
  rw [contains2_eq_false '<' '?' l h]
  simp

/- ### Lemmas about the modelled action parser -/

theorem parseA_open (t : List Char) : parseA ('{' :: '{' :: t) none = parseA t (some []) := rfl

theorem parseA_close (t : List Char) (acc : List Char) :
    parseA ('}' :: '}' :: t) (some acc) =
      match parseA t none with
      | none => none
      | some ns => some (TNode.action acc.reverse :: ns) := rfl

theorem parseA_cons_none (c : Char) (rest : List Char) (hc : c ≠ '{') :
    parseA (c :: rest) none =
      match parseA rest none with
      | none => none
      | some ns => some (TNode.text c :: ns) := by
  conv_lhs => rw [parseA.eq_def]
  split <;> simp_all

theorem parseA_cons_some (c : Char) (rest acc : List Char) (hc : c ≠ '}') :
    parseA (c :: rest) (some acc) = parseA rest (some (c :: acc)) := by
  conv_lhs => rw [parseA.eq_def]
  split <;> simp_all

theorem parseA_text_chunk (s t : List Char) (hs : '{' ∉ s) :
    parseA (s ++ t) none =
      match parseA t none with
      | none => none
      | some ns => some (s.map TNode.text ++ ns) := by
  induction s with
  | nil =>
    cases h : parseA t none <;> simp [h]
  | cons c s' ih =>
    have hc : c ≠ '{' := fun he => hs (he ▸ List.mem_cons_self c s')
    have hs' : '{' ∉ s' := fun hm => hs (List.mem_cons_of_mem c hm)
    rw [List.cons_append, parseA_cons_none c _ hc, ih hs']
    cases parseA t none <;> simp

theorem parseA_action_chunk (content t : List Char) (hcontent : '}' ∉ content) :
    ∀ acc : List Char,
    parseA (content ++ '}' :: '}' :: t) (some acc) =
      match parseA t none with
      | none => none
      | some ns => some (TNode.action (acc.reverse ++ content) :: ns) := by
  induction content with
  | nil =>
    intro acc
    rw [List.nil_append, parseA_close]
    cases parseA t none <;> simp
  | cons d content' ih =>
    intro acc
    have hd : d ≠ '}' := fun he => hcontent (he ▸ List.mem_cons_self d content')
    have hcontent' : '}' ∉ content' := fun hm => hcontent (List.mem_cons_of_mem d hm)
    rw [List.cons_append, parseA_cons_some d _ acc hd, ih hcontent' (d :: acc)]
    cases parseA t none <;> simp

theorem parseA_wrap_chunk (core t : List Char) (hcore : '}' ∉ core) :
    parseA (wrapAction core ++ t) none =
      match parseA t none with
      | none => none
      | some ns => some (TNode.action (' ' :: (core ++ [' '])) :: ns) := by
  have hshape : wrapAction core ++ t =
      '{' :: '{' :: ((' ' :: (core ++ [' '])) ++ ('}' :: '}' :: t)) := by
    simp [wrapAction]
  have hcontent : '}' ∉ ' ' :: (core ++ [' ']) := by
    intro hm
    rcases List.mem_cons.1 hm with h1 | h1
    · exact absurd h1 (by decide)
    · rcases List.mem_append.1 h1 with h2 | h2
      · exact hcore h2
      · rcases List.mem_singleton.1 h2 with h3
        exact absurd h3 (by decide)
  rw [hshape, parseA_open, parseA_action_chunk _ _ hcontent []]
  cases parseA t none <;> simp

theorem balancedAux_text_chunk (s : List Char) (ns : List TNode) (d : Nat) :
    balancedAux (s.map TNode.text ++ ns) d = balancedAux ns d := by
  induction s with
  | nil => rfl
  | cons c s' ih => simpa [balancedAux] using ih

theorem execNodes_text_chunk (s : List Char) (ns : List TNode) (ctx : Ctx) :
    execNodes (s.map TNode.text ++ ns) ctx =
      match execNodes ns ctx with
      | none => none
      | some out => some (s ++ out) := by
  induction s with
  | nil =>
    cases h : execNodes ns ctx <;> simp [h]
  | cons c s' ih =>
    simp only [List.map_cons, List.cons_append, execNodes, List.append_eq]
    rw [ih]
    cases execNodes ns ctx <;> simp

/- ### Lemmas about the line rewrites on wellformed dialect lines -/

theorem dropWhileEndC_eq_self (p : Char → Bool) (l : List Char)
    (h : ∀ c, l.getLast? = some c → p c = false) : dropWhileEndC p l = l := by
  unfold dropWhileEndC
  cases hr : l.reverse with
  | nil =>
    rw [List.reverse_eq_nil_iff] at hr
    rw [hr]
    rfl
  | cons c r =>
    have hlast : l.getLast? = some c := by
      rw [← List.head?_reverse, hr]
      rfl
    rw [List.dropWhile_cons_of_neg (by simp [h c hlast]), ← hr, List.reverse_reverse]

theorem dropWhileEndC_head (p : Char → Bool) (c : Char) (X : List Char)
    (hc : p c = false) : ∃ Y, dropWhileEndC p (c :: X) = c :: Y := by
  unfold dropWhileEndC
  rw [List.reverse_cons, List.dropWhile_append]
  by_cases he : (X.reverse.dropWhile p).isEmpty = true
  · refine ⟨[], ?_⟩
    rw [if_pos he, List.dropWhile_cons_of_neg (by simp [hc])]
    rfl
  · refine ⟨(X.reverse.dropWhile p).reverse, ?_⟩
    simp only [he, if_false, Bool.false_eq_true, List.reverse_append]
    rfl

theorem mem_joinSep (sep : Char) : ∀ (ls : List (List Char)) (c : Char),
    c ∈ joinSep sep ls → c = sep ∨ ∃ s ∈ ls, c ∈ s := by
  intro ls
  induction ls with
  | nil =>
    intro c h
    simp [joinSep] at h
  | cons s rest ih =>
    intro c h
    cases rest with
    | nil =>
      right
      exact ⟨s, by simp, by simpa [joinSep] using h⟩
    | cons t rest' =>
      rw [show joinSep sep (s :: t :: rest') = s ++ sep :: joinSep sep (t :: rest')
        from rfl] at h
      rcases List.mem_append.1 h with h1 | h1
      · right
        exact ⟨s, by simp, h1⟩
      · rcases List.mem_cons.1 h1 with h2 | h2
        · left
          exact h2
        · rcases ih c h2 with h3 | ⟨u, hu, hcu⟩
          · left
            exact h3
          · right
            exact ⟨u, List.mem_cons_of_mem s hu, hcu⟩

theorem argOk_props (arg : List Char) (h : argOk arg = true) :
    arg ≠ [] ∧ (∀ c ∈ arg, lineLitOk c = true ∨ c = ':') ∧
    (∀ c, arg.getLast? = some c → isSpTab c = false) ∧ '}' ∉ arg := by
  unfold argOk at h
  cases hl : arg.getLast? with
  | none =>
    rw [hl] at h
    exact absurd h (by simp)
  | some c =>
    rw [hl] at h
    simp only [Bool.and_eq_true, Bool.not_eq_true', List.all_eq_true] at h
    obtain ⟨hall, hsp⟩ := h
    refine ⟨?_, ?_, ?_, ?_⟩
    · intro he
      rw [he] at hl
      simp at hl
    · intro d hd
      have h2 := hall d hd
      simp only [Bool.or_eq_false_iff, beq_eq_false_iff_ne] at h2
      by_cases hdc : d = ':'
      · right
        exact hdc
      · left
        simp only [lineLitOk, Bool.or_eq_false_iff, Bool.not_eq_true',
          beq_eq_false_iff_ne]
        exact ⟨⟨⟨⟨h2.1.1.1.1, h2.1.1.1.2⟩, h2.1.2⟩, hdc⟩, h2.2⟩
    · intro d hd
      rw [← Option.some.inj hd]
      exact hsp
    · intro hm
      have h2 := hall '}' hm
      simp at h2

theorem lineGoRewrite_open (kw : LKw) (arg : List Char) (h : argOk arg = true) :
    lineGoRewrite (("go:: ".data) ++ (kwChars kw ++ ' ' :: arg)) =
      wrapAction (kwChars kw ++ ' ' :: arg) := by
  obtain ⟨hne, -, hlast, -⟩ := argOk_props arg h
  have hlast2 : ∀ c, (kwChars kw ++ ' ' :: arg).getLast? = some c → isSpTab c = false := by
    intro c hc
    apply hlast c
    rw [← hc]
    have harg : arg = arg.dropLast ++ [arg.getLast hne] :=
      (List.dropLast_append_getLast hne).symm
    conv_lhs => rw [harg]
    conv_rhs =>
      rw [harg, show kwChars kw ++ ' ' :: (arg.dropLast ++ [arg.getLast hne]) =
        (kwChars kw ++ ' ' :: arg.dropLast) ++ [arg.getLast hne] by simp]
    rw [List.getLast?_concat, List.getLast?_concat]
  have hdropWS : (kwChars kw ++ ' ' :: arg).dropWhile isWS = kwChars kw ++ ' ' :: arg := by
    cases kw <;>
      · rw [kwChars]
        rw [List.cons_append, List.dropWhile_cons_of_neg (by decide)]
  have hshape : ("go:: ".data) ++ (kwChars kw ++ ' ' :: arg) =
      'g' :: 'o' :: ':' :: ':' :: ' ' :: (kwChars kw ++ ' ' :: arg) := rfl
  rw [hshape]
  unfold lineGoRewrite
  rw [List.dropWhile_cons_of_neg (by decide)]
  rw [if_pos (by rfl)]
  have hdrop4 : ('g' :: 'o' :: ':' :: ':' :: ' ' :: (kwChars kw ++ ' ' :: arg)).drop 4 =
      ' ' :: (kwChars kw ++ ' ' :: arg) := rfl
  rw [hdrop4, List.dropWhile_cons_of_pos (by decide), hdropWS,
    dropWhileEndC_eq_self isSpTab _ hlast2]
  rw [if_neg (by cases kw <;> simp [kwChars])]
  rfl

theorem lineGoRewrite_close : lineGoRewrite ("::end".data) = ("::end".data) := by decide

theorem lineEndRewrite_close :
    lineEndRewrite ("::end".data) = ("\x7b\x7b end \x7d\x7d".data) := by decide

theorem lineEndRewrite_wrap (core : List Char) :
    lineEndRewrite (wrapAction core) = wrapAction core := by
  unfold lineEndRewrite
  have hshape : wrapAction core = '{' :: ('{' :: ' ' :: (core ++ (" \x7d\x7d".data))) := by
    simp [wrapAction]
  rw [hshape, List.dropWhile_cons_of_neg (by decide)]
  obtain ⟨Y, hY⟩ := dropWhileEndC_head isSpTab '{' _ (by decide)
  rw [hY, if_neg (by intro heq; exact absurd (List.cons.inj heq).1 (by decide))]

theorem lineGoRewrite_lit (s : List Char) (h : s.all lineLitOk = true) :
    lineGoRewrite s = s := by
  apply lineGoRewrite_id
  intro hm
  have h2 := List.all_eq_true.1 h ':' hm
  exact absurd h2 (by decide)

theorem lineEndRewrite_lit (s : List Char) (h : s.all lineLitOk = true) :
    lineEndRewrite s = s := by
  apply lineEndRewrite_id
  intro hm
  have h2 := List.all_eq_true.1 h ':' hm
  exact absurd h2 (by decide)

theorem wfLines_mem : ∀ (ls : List LItem), wfLines ls = true → ∀ li ∈ ls,
    (∀ s, li = LItem.lit s → s.all lineLitOk = true) ∧
    (∀ kw arg, li = LItem.lopen kw arg → argOk arg = true) := by
  intro ls
  induction ls with
  | nil =>
    intro _ li hm
    simp at hm
  | cons li' rest ih =>
    intro h li hm
    rcases List.mem_cons.1 hm with rfl | hmem
    · cases li with
      | lit s =>
        simp only [wfLines, Bool.and_eq_true] at h
        refine ⟨?_, ?_⟩
        · intro s' heq
          injection heq with h2
          rw [← h2]
          exact h.1
        · intro kw arg heq
          exact LItem.noConfusion heq
      | lopen kw0 arg0 =>
        simp only [wfLines, Bool.and_eq_true] at h
        refine ⟨?_, ?_⟩
        · intro s' heq
          exact LItem.noConfusion heq
        · intro kw arg heq
          injection heq with h2 h3
          rw [← h3]
          exact h.1
      | lclose =>
        refine ⟨?_, ?_⟩
        · intro s' heq
          exact LItem.noConfusion heq
        · intro kw arg heq
          exact LItem.noConfusion heq
    · cases li' with
      | lit s =>
        simp only [wfLines, Bool.and_eq_true] at h
        exact ih h.2 li hmem
      | lopen kw0 arg0 =>
        simp only [wfLines, Bool.and_eq_true] at h
        exact ih h.2 li hmem
      | lclose =>
        simp only [wfLines] at h
        exact ih h li hmem

theorem lineOfItem_char (li : LItem)
    (hlit : ∀ s, li = LItem.lit s → s.all lineLitOk = true)
    (hopen : ∀ kw arg, li = LItem.lopen kw arg → argOk arg = true) :
    ∀ c ∈ lineOfItem li, c ≠ '@' ∧ c ≠ '?' ∧ c ≠ '\n' := by
  intro c hc
  cases li with
  | lit s =>
    have h1 := hlit s rfl
    have h2 := List.all_eq_true.1 h1 c (by simpa [lineOfItem] using hc)
    simp only [lineLitOk, Bool.not_eq_true', Bool.or_eq_false_iff,
      beq_eq_false_iff_ne] at h2
    tauto
  | lopen kw arg =>
    have h1 := hopen kw arg rfl
    obtain ⟨-, hchars, -, -⟩ := argOk_props arg h1
    simp only [lineOfItem] at hc
    rcases List.mem_append.1 hc with h2 | h2
    · fin_cases h2 <;> refine ⟨by decide, by decide, by decide⟩
    · rcases List.mem_append.1 h2 with h3 | h3
      · cases kw <;> simp only [kwChars] at h3 <;> fin_cases h3 <;>
          refine ⟨by decide, by decide, by decide⟩
      · rcases List.mem_cons.1 h3 with rfl | h4
        · refine ⟨by decide, by decide, by decide⟩
        · rcases hchars c h4 with h6 | rfl
          · simp only [lineLitOk, Bool.not_eq_true', Bool.or_eq_false_iff,
              beq_eq_false_iff_ne] at h6
            tauto
          · refine ⟨by decide, by decide, by decide⟩
  | lclose =>
    simp only [lineOfItem] at hc
    fin_cases hc <;> refine ⟨by decide, by decide, by decide⟩

theorem sourceOfLines_no_at_qm (ls : List LItem) (h : wfLines ls = true) :
    '@' ∉ sourceOfLines ls ∧ '?' ∉ sourceOfLines ls := by
  constructor <;>
  · intro hm
    rcases mem_joinSep '\n' _ _ hm with h1 | ⟨s, hs, hcs⟩
    · exact absurd h1 (by decide)
    · rcases List.mem_map.1 hs with ⟨li, hli, rfl⟩
      obtain ⟨hlit, hopen⟩ := wfLines_mem ls h li hli
      have h3 := lineOfItem_char li hlit hopen _ hcs
      first
        | exact absurd rfl h3.1
        | exact absurd rfl h3.2.1

theorem mem_wrapAction (core : List Char) (c : Char) (h : c ∈ wrapAction core) :
    c ∈ core ∨ c = '{' ∨ c = '}' ∨ c = ' ' := by
  unfold wrapAction at h
  rcases List.mem_append.1 h with h1 | h1
  · rcases List.mem_append.1 h1 with h2 | h2
    · fin_cases h2
      · right; left; rfl
      · right; left; rfl
      · right; right; right; rfl
    · left; exact h2
  · fin_cases h1
    · right; right; right; rfl
    · right; right; left; rfl
    · right; right; left; rfl

theorem procLine1_no_nl (li : LItem)
    (hlit : ∀ s, li = LItem.lit s → s.all lineLitOk = true)
    (hopen : ∀ kw arg, li = LItem.lopen kw arg → argOk arg = true) :
    '\n' ∉ procLine1 li := by
  intro hm
  cases li with
  | lit s =>
    have h1 := hlit s rfl
    have h2 := List.all_eq_true.1 h1 '\n' (by simpa [procLine1] using hm)
    exact absurd h2 (by decide)
  | lopen kw arg =>
    have h1 := hopen kw arg rfl
    obtain ⟨-, hchars, -, -⟩ := argOk_props arg h1
    simp only [procLine1] at hm
    rcases mem_wrapAction _ _ hm with h2 | h2 | h2 | h2
    · rcases List.mem_append.1 h2 with h3 | h3
      · cases kw <;> simp only [kwChars] at h3 <;> exact absurd h3 (by decide)
      · rcases List.mem_cons.1 h3 with h4 | h4
        · exact absurd h4 (by decide)
        · rcases hchars _ h4 with h6 | h6
          · exact absurd h6 (by decide)
          · exact absurd h6 (by decide)
    · exact absurd h2 (by decide)
    · exact absurd h2 (by decide)
    · exact absurd h2 (by decide)
  | lclose =>
    simp only [procLine1] at hm
    exact absurd hm (by decide)

theorem procLine_no_nl (li : LItem)
    (hlit : ∀ s, li = LItem.lit s → s.all lineLitOk = true)
    (hopen : ∀ kw arg, li = LItem.lopen kw arg → argOk arg = true) :
    '\n' ∉ procLine li := by
  intro hm
  cases li with
  | lit s => exact procLine1_no_nl (LItem.lit s) hlit hopen (by simpa [procLine1] using hm)
  | lopen kw arg =>
    exact procLine1_no_nl (LItem.lopen kw arg) hlit hopen (by simpa [procLine1] using hm)
  | lclose =>
    simp only [procLine] at hm
    exact absurd hm (by decide)

theorem goRewriteAll_lines (ls : List LItem) (hls : ls ≠ [])
    (h : wfLines ls = true) :
    goRewriteAll (sourceOfLines ls) = joinSep '\n' (ls.map procLine1) := by
  unfold goRewriteAll sourceOfLines
  rw [splitOnC_joinSep '\n' (ls.map lineOfItem) (by simpa using hls) ?hnl]
  case hnl =>
    intro s hs hm
    rcases List.mem_map.1 hs with ⟨li, hli, rfl⟩
    obtain ⟨hlit, hopen⟩ := wfLines_mem ls h li hli
    exact absurd rfl (lineOfItem_char li hlit hopen _ hm).2.2
  rw [List.map_map]
  congr 1
  apply List.map_congr_left
  intro li hli
  obtain ⟨hlit, hopen⟩ := wfLines_mem ls h li hli
  cases li with
  | lit s => exact lineGoRewrite_lit s (hlit s rfl)
  | lopen kw arg => exact lineGoRewrite_open kw arg (hopen kw arg rfl)
  | lclose => exact lineGoRewrite_close

theorem endRewriteAll_lines (ls : List LItem) (hls : ls ≠ [])
    (h : wfLines ls = true) :
    endRewriteAll (joinSep '\n' (ls.map procLine1)) =
      joinSep '\n' (ls.map procLine) := by
  unfold endRewriteAll
  rw [splitOnC_joinSep '\n' (ls.map procLine1) (by simpa using hls) ?hnl]
  case hnl =>
    intro s hs hm
    rcases List.mem_map.1 hs with ⟨li, hli, rfl⟩
    obtain ⟨hlit, hopen⟩ := wfLines_mem ls h li hli
    exact procLine1_no_nl li hlit hopen hm
  rw [List.map_map]
  congr 1
  apply List.map_congr_left
  intro li hli
  obtain ⟨hlit, hopen⟩ := wfLines_mem ls h li hli
  cases li with
  | lit s => exact lineEndRewrite_lit s (hlit s rfl)
  | lopen kw arg => exact lineEndRewrite_wrap _
  | lclose => exact lineEndRewrite_close

theorem preprocess_lines (ls : List LItem) (h : wfLines ls = true) :
    preprocess (sourceOfLines ls) = joinSep '\n' (ls.map procLine) := by
  cases hempty : ls with
  | nil => decide
  | cons li rest =>
    rw [← hempty]
    have hne : ls ≠ [] := by rw [hempty]; simp
    obtain ⟨hat, hqm⟩ := sourceOfLines_no_at_qm ls h
    unfold preprocess
    rw [handleLegacyPHPTags_id _ hqm, echoScan_no_at _ hat,
      goRewriteAll_lines ls hne h, endRewriteAll_lines ls hne h]

theorem actionKind_open (kw : LKw) (arg : List Char) :
    actionKind (' ' :: ((kwChars kw ++ ' ' :: arg) ++ [' '])) = ActKind.opener := by
  cases kw <;> rfl

theorem parse_lines : ∀ (ls : List LItem), wfLines ls = true →
    parseA (joinSep '\n' (ls.map procLine)) none = some (nodesOfLines ls) := by
  intro ls
  induction ls with
  | nil => intro _; rfl
  | cons li rest ih =>
    intro h
    have hwfli := wfLines_mem (li :: rest) h li (List.mem_cons_self li rest)
    obtain ⟨hlit, hopen⟩ := hwfli
    have hrest : wfLines rest = true := by
      cases li with
      | lit s =>
        simp only [wfLines, Bool.and_eq_true] at h
        exact h.2
      | lopen kw arg =>
        simp only [wfLines, Bool.and_eq_true] at h
        exact h.2
      | lclose =>
        simp only [wfLines] at h
        exact h
    have hbrace_lit : ∀ s, li = LItem.lit s → '{' ∉ s := by
      intro s heq hm
      have h2 := List.all_eq_true.1 (hlit s heq) '{' hm
      exact absurd h2 (by decide)
    have hbrace_open : ∀ kw arg, li = LItem.lopen kw arg →
        '}' ∉ kwChars kw ++ ' ' :: arg := by
      intro kw arg heq hm
      obtain ⟨-, -, -, hnb⟩ := argOk_props arg (hopen kw arg heq)
      rcases List.mem_append.1 hm with h3 | h3
      · cases kw <;> simp only [kwChars] at h3 <;> exact absurd h3 (by decide)
      · rcases List.mem_cons.1 h3 with h4 | h4
        · exact absurd h4 (by decide)
        · exact hnb h4
    cases rest with
    | nil =>
      show parseA (procLine li) none = some (lineNodes li)
      cases li with
      | lit s =>
        have h2 := parseA_text_chunk s [] (hbrace_lit s rfl)
        rw [List.append_nil] at h2
        rw [show procLine (LItem.lit s) = s from rfl, h2,
          show parseA ([] : List Char) none = some [] from rfl]
        simp [lineNodes]
      | lopen kw arg =>
        have h2 := parseA_wrap_chunk (kwChars kw ++ ' ' :: arg) []
          (hbrace_open kw arg rfl)
        rw [List.append_nil] at h2
        rw [show procLine (LItem.lopen kw arg) =
          wrapAction (kwChars kw ++ ' ' :: arg) from rfl, h2,
          show parseA ([] : List Char) none = some [] from rfl]
        simp [lineNodes]
      | lclose => decide
    | cons li2 rest' =>
      have hstep : joinSep '\n' ((li :: li2 :: rest').map procLine) =
          procLine li ++ '\n' :: joinSep '\n' ((li2 :: rest').map procLine) := rfl
      rw [hstep]
      have hnl : ∀ t : List Char, parseA ('\n' :: t) none =
          match parseA t none with
          | none => none
          | some ns => some (TNode.text '\n' :: ns) :=
        fun t => parseA_cons_none '\n' t (by decide)
      have hrec := ih hrest
      cases li with
      | lit s =>
        rw [show procLine (LItem.lit s) = s from rfl,
          parseA_text_chunk s _ (hbrace_lit s rfl), hnl, hrec]
        simp [nodesOfLines, lineNodes]
      | lopen kw arg =>
        rw [show procLine (LItem.lopen kw arg) =
          wrapAction (kwChars kw ++ ' ' :: arg) from rfl,
          parseA_wrap_chunk _ _ (hbrace_open kw arg rfl), hnl, hrec]
        simp [nodesOfLines, lineNodes]
      | lclose =>
        rw [show procLine LItem.lclose = wrapAction ("end".data) from rfl,
          parseA_wrap_chunk _ _ (by decide), hnl, hrec]
        simp [nodesOfLines, lineNodes]

theorem balance_lines : ∀ (ls : List LItem) (d : Nat),
    balancedAux (nodesOfLines ls) d = balanceLinesAux ls d := by
  intro ls
  induction ls with
  | nil => intro d; rfl
  | cons li rest ih =>
    intro d
    cases rest with
    | nil =>
      cases li with
      | lit s =>
        show balancedAux (s.map TNode.text) d = balanceLinesAux [LItem.lit s] d
        have h2 := balancedAux_text_chunk s [] d
        rw [List.append_nil] at h2
        rw [h2]
        rfl
      | lopen kw arg =>
        show balancedAux [TNode.action (' ' :: ((kwChars kw ++ ' ' :: arg) ++ [' ']))] d =
          balanceLinesAux [LItem.lopen kw arg] d
        simp only [balancedAux, actionKind_open]
        rfl
      | lclose =>
        show balancedAux [TNode.action (" end ".data)] d =
          balanceLinesAux [LItem.lclose] d
        simp only [balancedAux,
          show actionKind (" end ".data) = ActKind.closer from rfl]
        cases d <;> rfl
    | cons li2 rest' =>
      have hrec := ih
      cases li with
      | lit s =>
        show balancedAux (s.map TNode.text ++ TNode.text '\n' ::
          nodesOfLines (li2 :: rest')) d = balanceLinesAux (LItem.lit s :: li2 :: rest') d
        rw [balancedAux_text_chunk]
        simp only [balancedAux]
        rw [hrec d]
        rfl
      | lopen kw arg =>
        show balancedAux (TNode.action (' ' :: ((kwChars kw ++ ' ' :: arg) ++ [' '])) ::
          TNode.text '\n' :: nodesOfLines (li2 :: rest')) d =
          balanceLinesAux (LItem.lopen kw arg :: li2 :: rest') d
        simp only [balancedAux, actionKind_open]
        rw [hrec (d + 1)]
        rfl
      | lclose =>
        show balancedAux (TNode.action (" end ".data) :: TNode.text '\n' ::
          nodesOfLines (li2 :: rest')) d = balanceLinesAux (LItem.lclose :: li2 :: rest') d
        simp only [balancedAux,
          show actionKind (" end ".data) = ActKind.closer from rfl]
        cases d with
        | zero => rfl
        | succ d' =>
          show balancedAux (TNode.text '\n' :: nodesOfLines (li2 :: rest')) d' = _
          simp only [balancedAux]
          rw [hrec d']
          rfl

/- ### Lemmas about echo only templates -/

theorem nameCharOk_facts (c : Char) (h : nameCharOk c = true) :
    identChar c = true ∧ isWS c = false ∧ c ≠ '{' ∧ c ≠ '}' ∧ c ≠ '(' ∧
    c ≠ '@' ∧ c ≠ '?' ∧ c ≠ ':' ∧ c ≠ '\n' := by
  have hm : c ∈ nameAlphabet := of_decide_eq_true h
  fin_cases hm <;> decide

theorem litCharOk_facts (c : Char) (h : litCharOk c = true) :
    c ≠ '@' ∧ c ≠ '{' ∧ c ≠ '?' ∧ c ≠ ':' := by
  simp only [litCharOk, Bool.not_eq_true', Bool.or_eq_false_iff,
    beq_eq_false_iff_ne] at h
  tauto

theorem echoScan_items : ∀ (items : List TItem), wfItems items = true →
    echoScan (sourceOfItems items) = processedOfItems items := by
  intro items
  induction items with
  | nil => intro _; rfl
  | cons it rest ih =>
    intro h
    cases it with
    | lit s =>
      simp only [wfItems, Bool.and_eq_true] at h
      obtain ⟨⟨hne, hall⟩, hrest⟩ := h
      have hat : '@' ∉ s := fun hm =>
        (litCharOk_facts _ (List.all_eq_true.1 hall _ hm)).1 rfl
      show echoScan (s ++ sourceOfItems rest) = s ++ processedOfItems rest
      rw [echoScan_append_no_at s _ hat, ih hrest]
    | echo n =>
      simp only [wfItems, Bool.and_eq_true] at h
      obtain ⟨⟨⟨hne, hall⟩, hbd⟩, hrest⟩ := h
      have hallid : ∀ d ∈ '.' :: n, identChar d = true := by
        intro d hd
        rcases List.mem_cons.1 hd with rfl | hd2
        · decide
        · exact (nameCharOk_facts d (List.all_eq_true.1 hall d hd2)).1
      have hbdry : echoBoundary (sourceOfItems rest) = true := by
        cases rest with
        | nil => rfl
        | cons it2 rest2 =>
          cases it2 with
          | lit s2 =>
            simp only [itemBoundaryOk] at hbd
            cases hhead : s2.head? with
            | none =>
              rw [hhead] at hbd
              exact absurd hbd (by simp)
            | some d =>
              rw [hhead] at hbd
              cases s2 with
              | nil => simp at hhead
              | cons e t =>
                have he : e = d := by
                  simp only [List.head?_cons, Option.some.injEq] at hhead
                  exact hhead
                subst he
                show echoBoundary (e :: t ++ sourceOfItems rest2) = true
                exact hbd
          | echo m =>
            show echoBoundary ('@' :: ('.' :: (m ++ sourceOfItems rest2))) = true
            rfl
      have hmatch : echoMatch (('.' :: n) ++ sourceOfItems rest) =
          some ('.' :: n, sourceOfItems rest) :=
        echoMatch_ident_exact '.' n _ (by decide) hallid hbdry
      show echoScan ('@' :: ('.' :: (n ++ sourceOfItems rest))) =
        wrapAction ('.' :: n) ++ processedOfItems rest
      rw [show ('.' :: (n ++ sourceOfItems rest)) = ('.' :: n) ++ sourceOfItems rest
        from by simp]
      rw [echoScan_at_some _ _ _ hmatch, ih hrest]

theorem sourceOfItems_no_qm : ∀ (items : List TItem), wfItems items = true →
    '?' ∉ sourceOfItems items := by
  intro items
  induction items with
  | nil =>
    intro _ hm
    simp [sourceOfItems] at hm
  | cons it rest ih =>
    intro h hm
    cases it with
    | lit s =>
      simp only [wfItems, Bool.and_eq_true] at h
      obtain ⟨⟨-, hall⟩, hrest⟩ := h
      rcases List.mem_append.1 hm with h1 | h1
      · exact (litCharOk_facts _ (List.all_eq_true.1 hall _ h1)).2.2.1 rfl
      · exact ih hrest h1
    | echo n =>
      simp only [wfItems, Bool.and_eq_true] at h
      obtain ⟨⟨⟨-, hall⟩, -⟩, hrest⟩ := h
      rcases List.mem_cons.1 hm with h1 | h1
      · exact absurd h1 (by decide)
      · rcases List.mem_cons.1 h1 with h2 | h2
        · exact absurd h2 (by decide)
        · rcases List.mem_append.1 h2 with h3 | h3
          · exact (nameCharOk_facts _ (List.all_eq_true.1 hall _ h3)).2.2.2.2.2.2.1 rfl
          · exact ih hrest h3

theorem processedOfItems_no_colon : ∀ (items : List TItem), wfItems items = true →
    ':' ∉ processedOfItems items := by
  intro items
  induction items with
  | nil =>
    intro _ hm
    simp [processedOfItems] at hm
  | cons it rest ih =>
    intro h hm
    cases it with
    | lit s =>
      simp only [wfItems, Bool.and_eq_true] at h
      obtain ⟨⟨-, hall⟩, hrest⟩ := h
      rcases List.mem_append.1 hm with h1 | h1
      · exact (litCharOk_facts _ (List.all_eq_true.1 hall _ h1)).2.2.2 rfl
      · exact ih hrest h1
    | echo n =>
      simp only [wfItems, Bool.and_eq_true] at h
      obtain ⟨⟨⟨-, hall⟩, -⟩, hrest⟩ := h
      rcases List.mem_append.1 hm with h1 | h1
      · rcases mem_wrapAction _ _ h1 with h2 | h2 | h2 | h2
        · rcases List.mem_cons.1 h2 with h3 | h3
          · exact absurd h3 (by decide)
          · exact (nameCharOk_facts _ (List.all_eq_true.1 hall _ h3)).2.2.2.2.2.2.2.1 rfl
        · exact absurd h2 (by decide)
        · exact absurd h2 (by decide)
        · exact absurd h2 (by decide)
      · exact ih hrest h1

theorem parseA_items : ∀ (items : List TItem), wfItems items = true →
    parseA (processedOfItems items) none = some (nodesOfItems items) := by
  intro items
  induction items with
  | nil => intro _; rfl
  | cons it rest ih =>
    intro h
    cases it with
    | lit s =>
      simp only [wfItems, Bool.and_eq_true] at h
      obtain ⟨⟨-, hall⟩, hrest⟩ := h
      have hbrace : '{' ∉ s := fun hm =>
        (litCharOk_facts _ (List.all_eq_true.1 hall _ hm)).2.1 rfl
      show parseA (s ++ processedOfItems rest) none = _
      rw [parseA_text_chunk s _ hbrace, ih hrest]
      simp [nodesOfItems]
    | echo n =>
      simp only [wfItems, Bool.and_eq_true] at h
      obtain ⟨⟨⟨-, hall⟩, -⟩, hrest⟩ := h
      have hbrace : '}' ∉ '.' :: n := by
        intro hm
        rcases List.mem_cons.1 hm with h1 | h1
        · exact absurd h1 (by decide)
        · exact (nameCharOk_facts _ (List.all_eq_true.1 hall _ h1)).2.2.2.1 rfl
      show parseA (wrapAction ('.' :: n) ++ processedOfItems rest) none = _
      rw [parseA_wrap_chunk _ _ hbrace, ih hrest]
      simp [nodesOfItems]

theorem actionKind_echo (n : List Char) (hall : n.all nameCharOk = true) :
    actionKind (' ' :: (('.' :: n) ++ [' '])) = ActKind.plain := by
  have hnws : ∀ d ∈ n, (!isWS d) = true := by
    intro d hd
    simp only [Bool.not_eq_true']
    exact (nameCharOk_facts d (List.all_eq_true.1 hall d hd)).2.1
  have hw : firstWord (' ' :: (('.' :: n) ++ [' '])) = '.' :: n := by
    unfold firstWord
    rw [List.dropWhile_cons_of_pos (by decide)]
    rw [show (('.' :: n) ++ [' ']) = '.' :: (n ++ [' ']) from by simp]
    rw [List.dropWhile_cons_of_neg (by decide)]
    rw [List.takeWhile_cons_of_pos (by decide)]
    rw [List.takeWhile_append_of_pos hnws, List.takeWhile_cons_of_neg (by decide)]
    simp
  unfold actionKind
  rw [hw]
  rw [if_neg ?h1, if_neg ?h2]
  case h1 =>
    intro hcase
    rcases hcase with h1 | h1 | h1 <;> exact absurd (List.cons.inj h1).1 (by decide)
  case h2 =>
    intro h1
    exact absurd (List.cons.inj h1).1 (by decide)

theorem balancedAux_items : ∀ (items : List TItem), wfItems items = true →
    ∀ d, balancedAux (nodesOfItems items) d = (d == 0) := by
  intro items
  induction items with
  | nil => intro _ d; rfl
  | cons it rest ih =>
    intro h d
    cases it with
    | lit s =>
      simp only [wfItems, Bool.and_eq_true] at h
      show balancedAux (s.map TNode.text ++ nodesOfItems rest) d = (d == 0)
      rw [balancedAux_text_chunk]
      exact ih h.2 d
    | echo n =>
      simp only [wfItems, Bool.and_eq_true] at h
      obtain ⟨⟨⟨-, hall⟩, -⟩, hrest⟩ := h
      show balancedAux (TNode.action (' ' :: (('.' :: n) ++ [' '])) ::
        nodesOfItems rest) d = (d == 0)
      simp only [balancedAux, actionKind_echo n hall]
      exact ih hrest d

theorem evalAction_echo (n : List Char) (ctx : Ctx) (v : List Char)
    (hne : n ≠ []) (hall : n.all nameCharOk = true)
    (hl : lookupP n ctx = some v) :
    evalAction (' ' :: (('.' :: n) ++ [' '])) ctx = some (htmlEscape v) := by
  have hlast : ∀ c, ('.' :: n).getLast? = some c → isWS c = false := by
    intro c hc
    have hdec : n = n.dropLast ++ [n.getLast hne] :=
      (List.dropLast_append_getLast hne).symm
    rw [show ('.' :: n).getLast? = some (n.getLast hne) from by
      conv_lhs => rw [hdec]
      rw [show '.' :: (n.dropLast ++ [n.getLast hne]) =
        ('.' :: n.dropLast) ++ [n.getLast hne] from by simp, List.getLast?_concat]] at hc
    obtain rfl := Option.some.inj hc.symm
    exact (nameCharOk_facts _ (List.all_eq_true.1 hall _ (List.getLast_mem hne))).2.1
  have ht : trimWSBoth (' ' :: (('.' :: n) ++ [' '])) = '.' :: n := by
    unfold trimWSBoth
    rw [List.dropWhile_cons_of_pos (by decide)]
    rw [show (('.' :: n) ++ [' ']) = '.' :: (n ++ [' ']) from by simp]
    rw [List.dropWhile_cons_of_neg (by decide)]
    rw [show ('.' :: (n ++ [' '])) = ('.' :: n) ++ [' '] from by simp]
    rw [dropWhileEndC_concat_pos isWS _ ' ' (by decide)]
    exact dropWhileEndC_eq_self isWS ('.' :: n) hlast
  unfold evalAction
  rw [ht]
  simp [hl]

theorem execNodes_items : ∀ (items : List TItem) (ctx : Ctx),
    wfItems items = true → coveredItems items ctx = true →
    execNodes (nodesOfItems items) ctx = some (outputOfItems items ctx) := by
  intro items
  induction items with
  | nil => intro ctx _ _; rfl
  | cons it rest ih =>
    intro ctx h hcov
    cases it with
    | lit s =>
      simp only [wfItems, Bool.and_eq_true] at h
      simp only [coveredItems] at hcov
      show execNodes (s.map TNode.text ++ nodesOfItems rest) ctx = _
      rw [execNodes_text_chunk, ih ctx h.2 hcov]
      simp [outputOfItems]
    | echo n =>
      simp only [wfItems, Bool.and_eq_true] at h
      obtain ⟨⟨⟨hne, hall⟩, -⟩, hrest⟩ := h
      simp only [coveredItems, Bool.and_eq_true] at hcov
      obtain ⟨hsome, hcov2⟩ := hcov
      cases hl : lookupP n ctx with
      | none =>
        rw [hl] at hsome
        exact absurd hsome (by simp)
      | some v =>
        have hne2 : n ≠ [] := by
          intro he
          rw [he] at hne
          exact absurd hne (by simp)
        show execNodes (TNode.action (' ' :: (('.' :: n) ++ [' '])) ::
          nodesOfItems rest) ctx = _
        simp only [execNodes, evalAction_echo n ctx v hne2 hall hl, ih ctx hrest hcov2]
        simp [outputOfItems, hl]

theorem segsOk_length : ∀ {pp qq : List (List Char)}, segsOk pp qq = true →
    pp.length = qq.length := by
  intro pp
  induction pp with
  | nil =>
    intro qq h
    cases qq with
    | nil => rfl
    | cons q qs => simp [segsOk] at h
  | cons p ps ih =>
    intro qq h
    cases qq with
    | nil => simp [segsOk] at h
    | cons q qs =>
      simp only [segsOk, Bool.and_eq_true] at h
      simp [ih h.2]

theorem matchSegs_of_segsOk : ∀ (pp qq : List (List Char)) (acc : Params),
    segsOk pp qq = true →
    matchSegs pp qq acc = some ((pp.zip qq).foldl
      (fun a pr => if isParamSeg pr.1 then (paramName pr.1, pr.2) :: a else a) acc) := by
  intro pp
  induction pp with
  | nil =>
    intro qq acc h
    cases qq with
    | nil => simp [matchSegs]
    | cons q qs => simp [segsOk] at h
  | cons p ps ih =>
    intro qq acc h
    cases qq with
    | nil => simp [segsOk] at h
    | cons q qs =>
      simp only [segsOk, Bool.and_eq_true, Bool.or_eq_true] at h
      obtain ⟨hpq, hrest⟩ := h
      by_cases hp : isParamSeg p = true
      · simp [matchSegs, hp, ih qs _ hrest]
      · have hq : p = q := by
          rcases hpq with h1 | h1
          · exact absurd h1 hp
          · exact eq_of_beq h1
        subst hq
        simp [matchSegs, hp, ih qs _ hrest]

/- ### Lemmas about the middleware composition loop -/

theorem composeLoop_take {H : Type} (mws : List (H → H)) :
    ∀ (n : Nat) (h : H), n ≤ mws.length →
      composeLoop mws n h = (mws.take n).foldr (fun mw acc => mw acc) h := by
  intro n
  induction n with
  | zero => intro h _; simp [composeLoop]
  | succ k ih =>
    intro h hlen
    have hk : k < mws.length := hlen
    have htake : mws.take (k + 1) = mws.take k ++ [mws.get ⟨k, hk⟩] := by
      rw [List.take_succ]
      simp [List.getElem?_eq_getElem hk, List.get_eq_getElem]
    have hget : mws.getD k id = mws.get ⟨k, hk⟩ := by
      simp [List.getD_eq_getElem?_getD, List.getElem?_eq_getElem hk, List.get_eq_getElem]
    rw [composeLoop, htake, List.foldr_append]
    simp only [List.foldr_cons, List.foldr_nil]
    rw [← hget]
    exact ih ((mws.getD k id) h) (Nat.le_of_lt hk)

theorem composeMWs_foldr {H : Type} (mws : List (H → H)) (h : H) :
    composeMWs mws h = mws.foldr (fun mw acc => mw acc) h := by
  rw [composeMWs, composeLoop_take mws mws.length h (Nat.le_refl _), List.take_length]

/- ### Claim theorems: rate limiter, middleware order, CSRF, role check -/

/-- C2: for ceiling 1 per 60 unit window, the first request is allowed and
recorded, a second request inside the window is rejected; but contrary to
the claim, a request at time 120, after the window around the lone request
at time 0 has fully elapsed, is still rejected, because the removal loop
leaves valid at zero when every recorded request is older than the window,
so the stale entry is never discarded and the 429 short circuit fires. -/
theorem rate_limiter_stale_window_rejected :
    rlAllow 1 60 [] 0 = (true, [0]) ∧
    rlAllow 1 60 [0] 30 = (false, [0]) ∧
    rlAllow 1 60 [0] 120 = (false, [0]) ∧
    (rateLimitStep true 1 60 [0] 120).1 = some 429 := by
  refine ⟨?_, ?_, ?_, ?_⟩ <;> decide

/-- C4: the handler stored by Handle is the onion composition: the explicit
downward index loop of the source equals the nested right fold
mw[0] (mw[1] (... mw[n-1] handler)), and with tracing middleware A
registered before B the observed order is A:in, B:in, handler, B:out,
A:out, so the first registered middleware is outermost and runs first. -/
theorem middleware_onion_composition :
    (∀ (H : Type) (r : GoRouter H) (m p : List Char) (h : H),
      (r.handle m p h).routes = r.routes ++ [⟨m, p, composeMWs r.middlewares h⟩]) ∧
    (∀ (H : Type) (mws : List (H → H)) (h : H),
      composeMWs mws h = mws.foldr (fun mw acc => mw acc) h) ∧
    ((((GoRouter.mk ([] : List (GoRoute (List String → List String))) []).use
        (mwTrace "A")).use (mwTrace "B")).handle ("GET".data) ("/r".data)
        handlerTrace).routes.map (fun rt => rt.handler []) =
      [["A:in", "B:in", "handler", "B:out", "A:out"]] := by
  refine ⟨fun H r m p h => rfl, fun H mws h => composeMWs_foldr mws h, ?_⟩
  rfl

/-- C8: every request whose path is covered by the auth exemption prefixes
or starts with /api/ makes the CSRF middleware call the wrapped handler
without consulting token validation, for every method and configuration. -/
theorem csrf_skips_api_and_exempt_paths (path method : List Char)
    (enableCSRF : Bool) (cookie : Option (List Char)) (headerTok : List Char)
    (validate : List Char → List Char → Bool)
    (h : shouldSkipAuth path = true ∨ startsWithL path ("/api/".data) = true) :
    csrfMiddleware enableCSRF path method cookie headerTok validate =
      ⟨true, false, none, false⟩ := by
  cases enableCSRF with
  | false => rfl
  | true =>
    have hcond : (shouldSkipAuth path || startsWithL path ("/api/".data)) = true := by
      rcases h with h1 | h1 <;> simp [h1]
    simp [csrfMiddleware, hcond]

/-- Witness for C8: a POST to an /api/ path passes straight through. -/
theorem csrf_skips_api_and_exempt_paths_witness :
    csrfMiddleware true ("/api/v1/things".data) ("POST".data) none []
      (fun _ _ => false) = ⟨true, false, none, false⟩ :=
  csrf_skips_api_and_exempt_paths _ _ _ _ _ _ (Or.inr (by decide))

/-- C9: whenever the context claims carry role admin the role check passes
for every required role, and a request without claims is refused with 401,
not 403, without reaching the handler. -/
theorem require_role_admin_and_missing_claims (role : List Char) (c : JwtClaims)
    (h : c.role = ("admin".data)) :
    requireRole role (some c) = ⟨true, none⟩ ∧
    requireRole role none = ⟨false, some 401⟩ := by
  constructor
  · simp [requireRole, h]
  · rfl

/-- Witness for C9: role admin passes a check requiring editor; no claims
gives 401. -/
theorem require_role_admin_and_missing_claims_witness :
    requireRole ("editor".data) (some ⟨("1".data), ("admin".data), 0, 0⟩) =
      ⟨true, none⟩ ∧
    requireRole ("editor".data) none = ⟨false, some 401⟩ :=
  require_role_admin_and_missing_claims ("editor".data) _ (by decide)

/-- C5 counterexample: the pattern /users and the path /posts have the same
segment count, yet dispatch returns NoMatch because the literal segments
differ, refuting the claim that equal segment count alone suffices for a
successful match. -/
theorem same_count_literal_mismatch_no_match :
    (splitOnC '/' (trimSlashes (trimSuffixSlash ("/users".data)))).length =
      (splitOnC '/' (trimSlashes (trimSuffixSlash ("/posts".data)))).length ∧
    dispatch [⟨("GET".data), ("/users".data), true⟩] ("GET".data) ("/posts".data) =
      (none : Option (Bool × Params)) := by
  refine ⟨by decide, by decide⟩

/-- C5 amended: for a registered (method, pattern) route, a path with the
same segment count whose segments agree with the pattern at every
non-parameter position is dispatched to that handler with each brace
segment bound to the path segment at the same position (later bindings of
a repeated name shadowing earlier ones); differing segment counts give
NoMatch. -/
theorem dispatch_binds_params_on_agreeing_paths (H : Type) (h : H)
    (m pattern path : List Char) :
    (segsOk (splitOnC '/' (trimSlashes (trimSuffixSlash pattern)))
        (splitOnC '/' (trimSlashes (trimSuffixSlash path))) = true →
      dispatch [⟨m, pattern, h⟩] m path =
        some (h, extractParams
          (splitOnC '/' (trimSlashes (trimSuffixSlash pattern)))
          (splitOnC '/' (trimSlashes (trimSuffixSlash path))))) ∧
    ((splitOnC '/' (trimSlashes (trimSuffixSlash pattern))).length ≠
        (splitOnC '/' (trimSlashes (trimSuffixSlash path))).length →
      dispatch [⟨m, pattern, h⟩] m path = none) := by
  have hdisp : ∀ o : Option Params,
      matchRoute pattern path = o →
      dispatch [⟨m, pattern, h⟩] m path = o.map (fun ps => (h, ps)) := by
    intro o ho
    simp [dispatch, List.findSome?, ho]
    cases o with
    | none => simp
    | some ps => simp
  constructor
  · intro hseg
    have hm : matchRoute pattern path =
        some (extractParams
          (splitOnC '/' (trimSlashes (trimSuffixSlash pattern)))
          (splitOnC '/' (trimSlashes (trimSuffixSlash path)))) := by
      unfold matchRoute matchTrimmed
      by_cases hroot : trimSuffixSlash pattern = [] ∧ trimSuffixSlash path = []
      · rw [if_pos hroot, hroot.1, hroot.2]
        decide
      · rw [if_neg hroot, if_neg (by simp [segsOk_length hseg])]
        exact matchSegs_of_segsOk _ _ _ hseg
    rw [hdisp _ hm]
    rfl
  · intro hne
    have hm : matchRoute pattern path = none := by
      unfold matchRoute matchTrimmed
      by_cases hroot : trimSuffixSlash pattern = [] ∧ trimSuffixSlash path = []
      · exfalso
        apply hne
        rw [hroot.1, hroot.2]
      · rw [if_neg hroot, if_pos hne]
    rw [hdisp _ hm]
    rfl

/-- Witness for the amended C5: GET /users/42 against the registered
pattern /users/\x7bid\x7d binds id to 42. -/
theorem dispatch_binds_params_on_agreeing_paths_witness :
    dispatch [⟨("GET".data), ("/users/\x7bid\x7d".data), true⟩] ("GET".data)
      ("/users/42".data) = some (true, [(("id".data), ("42".data))]) := by
  have h := (dispatch_binds_params_on_agreeing_paths Bool true ("GET".data)
    ("/users/\x7bid\x7d".data) ("/users/42".data)).1 (by decide)
  rw [h]
  decide

/-- C7 counterexample: the path /a// carries two trailing slashes; under
the claim only one of them would be trimmed and the residue would prevent
a match against the pattern /a, yet the route matches, because the
segment split additionally trims every remaining edge slash. -/
theorem double_trailing_slash_still_matches :
    matchRoute ("/a".data) ("/a//".data) = some [] ∧
    matchRoute ("/a".data) ("/a//".data) ≠ none := by
  refine ⟨by decide, by decide⟩

/-- C7 amended: matching first trims one trailing slash from pattern and
path, and the segment split then strips all remaining leading and trailing
slashes, so appending any further trailing slash to either side never
changes the result of match; and the path consisting of a single slash
matches the empty (root) pattern. -/
theorem trailing_slash_normalization :
    (∀ pattern path : List Char,
      matchRoute pattern (path ++ ['/']) = matchRoute pattern path) ∧
    (∀ pattern path : List Char,
      matchRoute (pattern ++ ['/']) path = matchRoute pattern path) ∧
    matchRoute [] ['/'] = some [] := by
  refine ⟨fun p q => ?_, fun p q => ?_, by decide⟩
  · rw [matchRoute, trimSuffixSlash_concat, matchRoute]
    exact (matchTrimmed_trim_right _ _).symm
  · rw [matchRoute, trimSuffixSlash_concat, matchRoute]
    exact (matchTrimmed_trim_left _ _).symm

/-- C10: a pattern of a single brace parameter segment matches the root
path, binding the parameter to the empty string: the path / trims to the
empty string, which splits into one empty segment, giving equal segment
counts, and the brace segment binds its name to that empty segment. -/
theorem single_param_pattern_matches_root (n : List Char) (h : '/' ∉ n) :
    matchRoute ('/' :: '{' :: (n ++ ['}'])) ['/'] = some [(n, [])] := by
  have hseg : '/' :: '{' :: (n ++ ['}']) = ('/' :: '{' :: n) ++ ['}'] := by simp
  have h1 : trimSuffixSlash ('/' :: '{' :: (n ++ ['}'])) =
      '/' :: '{' :: (n ++ ['}']) := by
    rw [hseg, trimSuffixSlash, List.getLast?_concat]
    simp
  have h2 : trimSuffixSlash ['/'] = [] := by decide
  have h3 : trimSlashes ('/' :: '{' :: (n ++ ['}'])) = '{' :: (n ++ ['}']) := by
    rw [hseg]
    unfold trimSlashes
    have hcons : ('/' : Char) :: '{' :: n = ('/' :: '{' :: n) := rfl
    rw [dropWhileEndC_concat_neg _ _ _ (by decide)]
    simp [List.dropWhile]
  have hmem : ('/' : Char) ∉ '{' :: (n ++ ['}']) := by
    intro hx
    rcases List.mem_cons.1 hx with h1x | h1x
    · exact absurd h1x (by decide)
    · rcases List.mem_append.1 h1x with h2x | h2x
      · exact h h2x
      · rcases List.mem_singleton.1 h2x with h3x
        exact absurd h3x (by decide)
  have h4 : splitOnC '/' ('{' :: (n ++ ['}'])) = ['{' :: (n ++ ['}'])] :=
    splitOnC_of_not_mem hmem
  have hparam : isParamSeg ('{' :: (n ++ ['}'])) = true := by
    have hlast : ('{' :: (n ++ ['}'])).getLast? = some '}' := by
      rw [show ('{' : Char) :: (n ++ ['}']) = ('{' :: n) ++ ['}'] by simp,
        List.getLast?_concat]
    simp [isParamSeg, hlast]
  have hname : paramName ('{' :: (n ++ ['}'])) = n := by
    have hlast : ('{' :: (n ++ ['}'])).getLast? = some '}' := by
      rw [show ('{' : Char) :: (n ++ ['}']) = ('{' :: n) ++ ['}'] by simp,
        List.getLast?_concat]
    have hdrop : ('{' :: (n ++ ['}'])).dropLast = '{' :: n := by
      rw [show ('{' : Char) :: (n ++ ['}']) = ('{' :: n) ++ ['}'] by simp,
        List.dropLast_concat]
    simp [paramName, hlast, hdrop]
  rw [matchRoute, h1, h2]
  unfold matchTrimmed
  rw [if_neg (by simp)]
  simp only [h3, h4]
  have h5 : trimSlashes [] = [] := by decide
  rw [h5]
  simp only [splitOnC]
  rw [if_neg (by simp)]
  simp [matchSegs, hparam, hname]

/-- Witness for C10: the pattern /\x7bid\x7d matches the root path and
binds id to the empty string. -/
theorem single_param_pattern_matches_root_witness :
    matchRoute ('/' :: '{' :: (("id".data) ++ ['}'])) ['/'] =
      some [(("id".data), [])] :=
  single_param_pattern_matches_root ("id".data) (by decide)

/-- C6: at each @ the echo rewrite recognizes the longest valid dotted
identifier run, extended by a call group exactly when a closing
parenthesis completes it, and rewrites precisely that expression into an
output action; the expression must start with a letter, underscore or
dot, and a marker such as @$variable whose first character is outside
that class is left untouched, scanning resuming right after the @. -/
theorem echo_rewrite_longest_valid_expression :
    (∀ pre c cs rest, '@' ∉ pre → identStart c = true →
        (∀ d ∈ c :: cs, identChar d = true) → echoBoundary rest = true →
        echoScan (pre ++ '@' :: ((c :: cs) ++ rest)) =
          pre ++ wrapAction (c :: cs) ++ echoScan rest) ∧
    (∀ pre c cs args rest, '@' ∉ pre → identStart c = true →
        (∀ d ∈ c :: cs, identChar d = true) → ')' ∉ args →
        echoScan (pre ++ '@' :: ((c :: cs) ++ '(' :: (args ++ ')' :: rest))) =
          pre ++ wrapAction ((c :: cs) ++ '(' :: (args ++ [')'])) ++ echoScan rest) ∧
    (∀ pre c rest, '@' ∉ pre → identStart c = false →
        echoScan (pre ++ '@' :: (c :: rest)) = pre ++ '@' :: echoScan (c :: rest)) ∧
    echoScan ("@$variable".data) = ("@$variable".data) := by
  refine ⟨?_, ?_, ?_, by decide⟩
  · intro pre c cs rest hpre hstart hall hb
    rw [echoScan_append_no_at pre _ hpre,
      echoScan_at_some _ _ _ (echoMatch_ident_exact c cs rest hstart hall hb),
      List.append_assoc]
  · intro pre c cs args rest hpre hstart hall hargs
    rw [echoScan_append_no_at pre _ hpre,
      echoScan_at_some _ _ _ (echoMatch_call_exact c cs args rest hstart hall hargs),
      List.append_assoc]
  · intro pre c rest hpre hns
    rw [echoScan_append_no_at pre _ hpre,
      echoScan_at_none _ (echoMatch_none_of_not_start c rest hns)]

/-- Witness for C6: a dotted identifier marker, a call marker, and a
dollar marker, each rewritten as the theorem states. -/
theorem echo_rewrite_longest_valid_expression_witness :
    echoScan (("<p>".data) ++ '@' :: (('.' :: ("Name".data)) ++ ("!</p>".data))) =
      ("<p>".data) ++ wrapAction ('.' :: ("Name".data)) ++ echoScan ("!</p>".data) ∧
    echoScan (("x=".data) ++ '@' :: (('f' :: [] ) ++ '(' :: (("1".data) ++ ')' :: (" y".data)))) =
      ("x=".data) ++ wrapAction (('f' :: []) ++ '(' :: (("1".data) ++ [')'])) ++ echoScan (" y".data) ∧
    echoScan (("a ".data) ++ '@' :: ('$' :: ("v".data))) =
      ("a ".data) ++ '@' :: echoScan ('$' :: ("v".data)) := by
  refine ⟨?_, ?_, ?_⟩
  · exact echo_rewrite_longest_valid_expression.1 ("<p>".data) '.' ("Name".data)
      ("!</p>".data) (by decide) (by decide) (by decide) (by decide)
  · exact (echo_rewrite_longest_valid_expression.2).1 ("x=".data) 'f' [] ("1".data)
      (" y".data) (by decide) (by decide) (by decide) (by decide)
  · exact ((echo_rewrite_longest_valid_expression.2).2).1 ("a ".data) '$' ("v".data)
      (by decide) (by decide)

/-- C3: over dialect sources made of literal lines, logic open lines and
close marker lines, compilation (preprocessing followed by the modelled
template compiler, which enforces matching open and close actions per the
specification) succeeds exactly when every open marker has a matching
close marker in document order; an unmatched open or a stray close yields
a CompileError, embedded as none, never a crash. -/
theorem logic_block_balance_decides_compilation (ls : List LItem)
    (hwf : wfLines ls = true) :
    (balancedLines ls = true →
      ∃ t, compileT (preprocess (sourceOfLines ls)) = some t) ∧
    (balancedLines ls = false →
      compileT (preprocess (sourceOfLines ls)) = none) := by
  have hpre := preprocess_lines ls hwf
  have hparse := parse_lines ls hwf
  have hbal := balance_lines ls 0
  constructor
  · intro hb
    refine ⟨nodesOfLines ls, ?_⟩
    rw [hpre]
    unfold compileT
    rw [hparse]
    show (if balancedAux (nodesOfLines ls) 0 = true then some (nodesOfLines ls)
      else none) = some (nodesOfLines ls)
    rw [if_pos (by rw [hbal]; exact hb)]
  · intro hb
    rw [hpre]
    unfold compileT
    rw [hparse]
    show (if balancedAux (nodesOfLines ls) 0 = true then some (nodesOfLines ls)
      else none) = none
    have hcond : ¬ balancedAux (nodesOfLines ls) 0 = true := by
      rw [hbal, show balanceLinesAux ls 0 = balancedLines ls from rfl, hb]
      simp
    rw [if_neg hcond]

/-- Witness for C3: a balanced if block compiles; the same source without
its close marker and a stray close marker both fail. -/
theorem logic_block_balance_decides_compilation_witness :
    (∃ t, compileT (preprocess (sourceOfLines
      [LItem.lopen LKw.kif (".Ok".data), LItem.lit ("hi".data), LItem.lclose])) =
        some t) ∧
    compileT (preprocess (sourceOfLines
      [LItem.lopen LKw.kif (".Ok".data), LItem.lit ("hi".data)])) = none ∧
    compileT (preprocess (sourceOfLines [LItem.lit ("hi".data), LItem.lclose])) =
      none := by
  refine ⟨?_, ?_, ?_⟩
  · exact (logic_block_balance_decides_compilation _ (by decide)).1 (by decide)
  · exact (logic_block_balance_decides_compilation _ (by decide)).2 (by decide)
  · exact (logic_block_balance_decides_compilation _ (by decide)).2 (by decide)

/-- C1: compiling then rendering an echo only template (literal text and
@.field markers) against a context supplying every referenced field
succeeds, and the output interleaves the literals verbatim with the HTML
escaped context values, so every echoed value is escaped by construction;
in particular a context value <script> can only appear as its escaped
form.  The template compiler and executor are modelled from the spec, as
the Go html template package is external to the repository. -/
theorem echo_templates_render_html_escaped (items : List TItem) (ctx : Ctx)
    (hwf : wfItems items = true) (hcov : coveredItems items ctx = true) :
    renderStringT (sourceOfItems items) ctx = some (outputOfItems items ctx) := by
  have hqm := sourceOfItems_no_qm items hwf
  have hproc := echoScan_items items hwf
  have hcolon := processedOfItems_no_colon items hwf
  unfold renderStringT preprocess
  rw [handleLegacyPHPTags_id _ hqm, hproc, goRewriteAll_id _ hcolon,
    endRewriteAll_id _ hcolon]
  unfold compileT
  rw [parseA_items items hwf]
  show (match (if balancedAux (nodesOfItems items) 0 = true
      then some (nodesOfItems items) else none) with
    | none => none
    | some ns => execNodes ns ctx) = some (outputOfItems items ctx)
  rw [if_pos (by rw [balancedAux_items items hwf 0]; rfl)]
  exact execNodes_items items ctx hwf hcov

/-- Witness for C1: the template h1 wrapping an echoed Title, rendered
with Title bound to a script tag, produces the escaped text, never the
verbatim tag. -/
theorem echo_templates_render_html_escaped_witness :
    renderStringT (sourceOfItems
      [TItem.lit ("<h1>".data), TItem.echo ("Title".data), TItem.lit ("</h1>".data)])
      [(("Title".data), ("<script>".data))] =
      some ("<h1>&lt;script&gt;</h1>".data) := by
  have h := echo_templates_render_html_escaped
    [TItem.lit ("<h1>".data), TItem.echo ("Title".data), TItem.lit ("</h1>".data)]
    [(("Title".data), ("<script>".data))] (by decide) (by decide)
  rw [h]
  decide

end GoBastion
